import Mathlib

/-!
Verification of the `open-evals` knowledge-graph test-data generator.

This file gives a shallow embedding, in Lean, of the data model and the
operations of the `@open-evals/generator` package (knowledge graph, graph
serialization, scenario builders, synthesizer allocation, the `relationship`
transform and persona clustering), translated from the TypeScript sources:

* `packages/generator/src/graph/knowledge-graph.ts`
* `packages/generator/src/graph/node.ts`
* `packages/generator/src/synthesizer/synthesize.ts`
* the scenario builder (`SingleHopScenarioBuilder`, `MultiHopScenarioBuilder`)
* the `relationship(threshold)` transform
* `selectRepresentativeSummaries` in the persona generator

Modelling conventions:

* A JavaScript `Map` is modelled as an association list in insertion order;
  `Map.set` replaces the (unique) entry with the same key in place, or
  appends; `Map.delete` removes the entry with the key; `Map.get` looks the
  key up.  Where a theorem needs the `Map` class invariant (unique keys) it
  is stated explicitly as a `Nodup` hypothesis.
* JavaScript numbers are modelled as exact rationals (`ℚ`).
* Thrown exceptions are modelled with `Except String`.
* The injected randomness (the Fisher-Yates `shuffle` over `Math.random`,
  and the random query-config pick) is modelled by explicit parameters: a
  family of shuffling functions (assumed to be permutations, which the
  Fisher-Yates implementation guarantees) and a stream of random indices.
* `cosineSimilarity` is imported by the repository from the external `ai`
  package; it is modelled as an abstract similarity function parameter.
-/

set_option autoImplicit false

namespace OpenEvals

/-- Role carried by a `hierarchy` relationship (`'parent' | 'child'`). -/
inductive HierRole where
  | parent
  | child
deriving DecidableEq

/--
A relationship payload, from `packages/generator/src/types.ts`:
`{ type: 'similarity'; score: number } | { type: 'hierarchy'; role: 'parent' | 'child' }
 | { type: 'entity'; role: 'related' }`.
-/
inductive Relationship where
  | similarity (score : ℚ)
  | hierarchy (role : HierRole)
  | entityRel
deriving DecidableEq

/-- The type discriminator of a relationship (`Relationship['type']`). -/
inductive RelType where
  | similarity
  | hierarchy
  | entityRel
deriving DecidableEq

/-- Projects the `type` field of a relationship. -/
def Relationship.rtype : Relationship → RelType
  | .similarity _ => .similarity
  | .hierarchy _ => .hierarchy
  | .entityRel => .entityRel

/-- Node type discriminator (`'document' | 'chunk' | 'entity'`). -/
inductive NodeType where
  | document
  | chunk
  | entity
deriving DecidableEq

/--
A graph node, from `packages/generator/src/graph/node.ts`.  The abstract
class `GraphNode` (fields `id`, `type`, `metadata`, `relationships`) and its
three subclasses are modelled as one structure: `content` is the field of
`DocumentNode`/`ChunkNode`, and `name`/`entityType`/`description` are the
fields of `EntityNode`; fields a variant does not have are `none`.
The `relationships` JavaScript `Map` is an association list.
-/
structure GraphNode (T : Type) where
  id : String
  ntype : NodeType
  content : Option String
  name : Option String
  entityType : Option String
  description : Option String
  metadata : T
  relationships : List (String × Relationship)
deriving DecidableEq

/-- JavaScript `Map.get`: value at the first (unique) entry with the key. -/
def mapGet {β : Type} : List (String × β) → String → Option β
  | [], _ => none
  | (k, v) :: rest, key => if k = key then some v else mapGet rest key

/-- JavaScript `Map.set`: replace the entry with the key in place, else append. -/
def mapSet {β : Type} : List (String × β) → String → β → List (String × β)
  | [], key, v => [(key, v)]
  | (k, w) :: rest, key, v =>
    if k = key then (key, v) :: rest else (k, w) :: mapSet rest key v

/-- JavaScript `Map.delete`: remove the entry with the key. -/
def mapDelete {β : Type} : List (String × β) → String → List (String × β)
  | [], _ => []
  | (k, v) :: rest, key => if k = key then rest else (k, v) :: mapDelete rest key

/--
The knowledge graph, from `packages/generator/src/graph/knowledge-graph.ts`:
`private nodes: Map<string, GraphNode<T>>`.  The map is keyed by `node.id`
(every insertion goes through `addNode`, which uses `node.id` as the key),
so it is modelled as the list of nodes in insertion order.
-/
structure KnowledgeGraph (T : Type) where
  nodes : List (GraphNode T)
deriving DecidableEq

namespace KnowledgeGraph

variable {T : Type}

/-- Keyed insertion for the node map: replace the node with the same id, else append. -/
def nodeSet : List (GraphNode T) → GraphNode T → List (GraphNode T)
  | [], n => [n]
  | m :: rest, n => if m.id = n.id then n :: rest else m :: nodeSet rest n

/-- Keyed deletion for the node map. -/
def nodeDelete : List (GraphNode T) → String → List (GraphNode T)
  | [], _ => []
  | m :: rest, i => if m.id = i then rest else m :: nodeDelete rest i

/-- Apply `f` to the node with the given id (in-place object mutation in JS). -/
def nodeUpdate : List (GraphNode T) → String → (GraphNode T → GraphNode T) → List (GraphNode T)
  | [], _, _ => []
  | m :: rest, i, f => if m.id = i then f m :: rest else m :: nodeUpdate rest i f

/-- `getNode(id)`. -/
def getNode (g : KnowledgeGraph T) (i : String) : Option (GraphNode T) :=
  g.nodes.find? (fun n => n.id = i)

/-- `hasNode(id)`. -/
def hasNode (g : KnowledgeGraph T) (i : String) : Bool :=
  (g.getNode i).isSome

/-- `getNodes()`. -/
def getNodes (g : KnowledgeGraph T) : List (GraphNode T) :=
  g.nodes

/-- `getNodesByType(type)`. -/
def getNodesByType (g : KnowledgeGraph T) (t : NodeType) : List (GraphNode T) :=
  g.nodes.filter (fun n => n.ntype = t)

/-- `addNode(node)`: `this.nodes.set(node.id, node)`. -/
def addNode (g : KnowledgeGraph T) (n : GraphNode T) : KnowledgeGraph T :=
  ⟨nodeSet g.nodes n⟩

/--
`removeNode(id)`: delete the node, then delete the id from every remaining
node's relationship map.
-/
def removeNode (g : KnowledgeGraph T) (i : String) : KnowledgeGraph T :=
  ⟨(nodeDelete g.nodes i).map fun n => { n with relationships := mapDelete n.relationships i }⟩

/--
`addRelationship(sourceId, targetId, relationship)`: throws when either
endpoint is missing, otherwise `sourceNode.relationships.set(targetId, r)`.
-/
def addRelationship (g : KnowledgeGraph T) (s t : String) (r : Relationship) :
    Except String (KnowledgeGraph T) :=
  match g.getNode s with
  | none => .error ("Source node " ++ s ++ " not found")
  | some _ =>
    match g.getNode t with
    | none => .error ("Target node " ++ t ++ " not found")
    | some _ =>
      .ok ⟨nodeUpdate g.nodes s fun n => { n with relationships := mapSet n.relationships t r }⟩

/--
`getNeighbors(id, type?)`: throws when the node is missing; otherwise walks
the node's relationship entries in order, skips entries not matching the
optional type filter, and keeps the target nodes that exist in the graph.
-/
def getNeighbors (g : KnowledgeGraph T) (i : String) (ty : Option RelType := none) :
    Except String (List (GraphNode T)) :=
  match g.getNode i with
  | none => .error ("Source node " ++ i ++ " not found")
  | some n =>
    .ok (n.relationships.filterMap fun p =>
      match ty with
      | some t => if p.2.rtype = t then g.getNode p.1 else none
      | none => g.getNode p.1)

/--
Total neighbor enumeration used inside `traverse`, where the node is known
to exist (so `getNeighbors` cannot throw): the targets of the node's
relationship entries, in order, restricted to nodes present in the graph.
-/
def neighborsOf (g : KnowledgeGraph T) (i : String) : List (GraphNode T) :=
  match g.getNode i with
  | none => []
  | some n => n.relationships.filterMap fun p => g.getNode p.1

end KnowledgeGraph

/--
The JSON record produced by `GraphNode.toJSON` (and its subclass overrides):
the base fields `id`, `type`, `metadata`, `relationships` plus the
variant-specific fields (`content` for document/chunk, `name`, `entityType`,
`description` for entity), absent fields being `none`.
-/
structure NodeJSON (T : Type) where
  id : String
  ntype : NodeType
  metadata : T
  relationships : List (String × Relationship)
  content : Option String
  name : Option String
  entityType : Option String
  description : Option String
deriving DecidableEq

/-- The JSON record produced by `KnowledgeGraph.toJSON`: `{ nodes: [...] }`. -/
structure GraphJSON (T : Type) where
  nodes : List (NodeJSON T)
deriving DecidableEq

/-- `GraphNode.toJSON` together with the subclass overrides: serialize every field. -/
def GraphNode.toJSON {T : Type} (n : GraphNode T) : NodeJSON T :=
  ⟨n.id, n.ntype, n.metadata, n.relationships, n.content, n.name, n.entityType, n.description⟩

/--
The static `GraphNode.fromJSON` of the abstract base class in
`packages/generator/src/graph/node.ts` (lines 68-70): it unconditionally
throws `new Error('Method not implemented.')`.  (The subclasses
`DocumentNode`/`ChunkNode`/`EntityNode` define their own static `fromJSON`
with zod validation, but a static method is not dispatched dynamically:
`KnowledgeGraph.fromJSON` calls this base-class static directly.)
-/
def GraphNode.fromJSON {T : Type} (_ : NodeJSON T) : Except String (GraphNode T) :=
  .error "Method not implemented."

/-- `KnowledgeGraph.toJSON`: `{ nodes: nodes.map(n => n.toJSON()) }`. -/
def KnowledgeGraph.toJSON {T : Type} (g : KnowledgeGraph T) : GraphJSON T :=
  ⟨g.nodes.map GraphNode.toJSON⟩

/--
`KnowledgeGraph.fromJSON` (knowledge-graph.ts lines 123-136): builds a fresh
graph and, for each node record, calls `GraphNode.fromJSON(nodeData)` — the
abstract base's static method — then `addNode`s the result.  A thrown error
propagates out, modelled by the `Except` monad.
-/
def KnowledgeGraph.fromJSON {T : Type} (j : GraphJSON T) : Except String (KnowledgeGraph T) :=
  j.nodes.foldlM (fun g nd => do
    let node ← GraphNode.fromJSON nd
    pure (g.addNode node)) ⟨[]⟩

/-- JavaScript `Math.round` on an exact rational: halves round toward `+∞`. -/
def jsRound (q : ℚ) : ℤ := ⌊q + 1 / 2⌋

/-- `synthesize` line 66: `synthesizers.reduce((sum, [, weight]) => sum + weight, 0)`. -/
def totalWeight (ws : List ℚ) : ℚ := ws.foldl (· + ·) 0

/-- `reduce((sum, { count }) => sum + count, 0)` over the allocation list. -/
def sumInt (l : List ℤ) : ℤ := l.foldl (· + ·) 0

/--
`synthesize` lines 71-74: per-synthesizer sample counts
`Math.round((count * weight) / totalWeight)`.
-/
def allocations (count : ℕ) (ws : List ℚ) : List ℤ :=
  ws.map fun w => jsRound ((count * w) / totalWeight ws)

/--
`synthesize` lines 82-86: index of the largest allocation, computed by
`reduce((maxIdx, curr, idx, arr) => curr.count > arr[maxIdx]!.count ? idx : maxIdx, 0)`
(the first maximum wins, since the comparison is strict).
-/
def largestIndex (allocs : List ℤ) : ℕ :=
  allocs.enum.foldl (fun maxIdx p => if p.2 > allocs.getD maxIdx 0 then p.1 else maxIdx) 0

/--
`synthesize` lines 76-88: correct rounding drift by adding the signed
difference `count - totalCalculated` to the largest allocation, when the
difference is nonzero.
-/
def correctedAllocations (count : ℕ) (ws : List ℚ) : List ℤ :=
  if (count : ℤ) - sumInt (allocations count ws) ≠ 0 then
    (allocations count ws).set (largestIndex (allocations count ws))
      ((allocations count ws).getD (largestIndex (allocations count ws)) 0
        + ((count : ℤ) - sumInt (allocations count ws)))
  else allocations count ws

/--
`synthesize` lines 58-69: the validation prefix.  It throws when the
synthesizer list is empty, when the persona list is empty, or when the total
weight is exactly zero (`totalWeight === 0` — note: not when it is negative).
-/
def validateSynthesize (ws : List ℚ) (numPersonas : ℕ) : Except String Unit :=
  if ws.length = 0 then .error "At least one synthesizer must be provided"
  else if numPersonas = 0 then .error "At least one persona must be provided"
  else if totalWeight ws = 0 then .error "Total weight of synthesizers must be greater than 0"
  else .ok ()

/--
The pure prefix of `synthesize`, up to the computation of the corrected
per-synthesizer allocations: validation happens first, before any scenario
generation or model call.
-/
def synthesizePlan (ws : List ℚ) (numPersonas count : ℕ) : Except String (List ℤ) := do
  let _ ← validateSynthesize ws numPersonas
  pure (correctedAllocations count ws)

/-- Query length (`'short' | 'medium' | 'long'`). -/
inductive QueryLength where
  | short
  | medium
  | long
deriving DecidableEq

/-- Query style (`'web-search' | 'conversational' | 'technical'`). -/
inductive QueryStyle where
  | webSearch
  | conversational
  | technical
deriving DecidableEq

/-- Query type (`'single-hop' | 'multi-hop'`). -/
inductive QueryType where
  | singleHop
  | multiHop
deriving DecidableEq

/-- A persona (`{ name, description }`). -/
structure Persona where
  name : String
  description : String
deriving DecidableEq

/-- The query tuple of a scenario: `{ length, style, type }`. -/
structure QueryShape where
  qlength : QueryLength
  style : QueryStyle
  qtype : QueryType
deriving DecidableEq

/--
The context of a scenario: `{ nodes: GraphNode<T>[] }`.  The `nodes` field
is declared as an array in TypeScript, but at runtime the multi-hop builder
can store `undefined` in it (indexing an empty group array), so the runtime
value is modelled as an `Option`.
-/
structure ScenarioContext (T : Type) where
  nodes : Option (List (GraphNode T))
deriving DecidableEq

/-- A generated scenario: `{ persona, context, query }`. -/
structure Scenario (T : Type) where
  persona : Persona
  context : ScenarioContext T
  query : QueryShape
deriving DecidableEq

/-- The default `queryLengths` config. -/
def defaultQueryLengths : List QueryLength := [.short, .medium, .long]

/-- The default `queryStyles` config. -/
def defaultQueryStyles : List QueryStyle := [.webSearch, .conversational, .technical]

/--
`generateQueryConfigs()`: the generator yields every (length, style) pair,
lengths outermost, using the default configuration (the scenario builders
are invoked by `generateScenarios` with an empty config object).
-/
def queryConfigs : List (QueryLength × QueryStyle) :=
  defaultQueryLengths.flatMap fun l => defaultQueryStyles.map fun s => (l, s)

/--
`queryConfigs[Math.floor(Math.random() * queryConfigs.length)]`: the random
pick of a query config, with the injected random stream `rnd` (one draw per
loop iteration, reduced modulo the list length; the list is never empty
under the default config, so the fallback default is never used).
-/
def pickQueryConfig (rnd : ℕ → ℕ) (step : ℕ) : QueryLength × QueryStyle :=
  queryConfigs.getD (rnd step % queryConfigs.length) (.short, .webSearch)

/--
The `while (scenarios.length < count)` loop of `SingleHopScenarioBuilder.build`:
one scenario per iteration from `chunkNodes[nodeIndex % chunkNodes.length]`,
then `nodeIndex++`, reshuffling (`sh passes`) after each full pass.
`r` is the number of scenarios still to produce.
-/
def singleHopLoop {T : Type} (sh : ℕ → List (GraphNode T) → List (GraphNode T))
    (rnd : ℕ → ℕ) (p : Persona) :
    ℕ → List (GraphNode T) → ℕ → ℕ → ℕ → List (Scenario T)
  | 0, _, _, _, _ => []
  | r + 1, cns, idx, passes, step =>
    let qc := pickQueryConfig rnd step
    let scen : Scenario T :=
      ⟨p, ⟨(cns[idx % cns.length]?).map fun n => [n]⟩, ⟨qc.1, qc.2, .singleHop⟩⟩
    if (idx + 1) % cns.length = 0 then
      scen :: singleHopLoop sh rnd p r (sh passes cns) (idx + 1) (passes + 1) (step + 1)
    else
      scen :: singleHopLoop sh rnd p r cns (idx + 1) passes (step + 1)

/--
`SingleHopScenarioBuilder.build`: shuffle the chunk nodes, return `[]` when
there are none, otherwise loop until `count` scenarios are produced.
-/
def singleHopBuild {T : Type} (sh : ℕ → List (GraphNode T) → List (GraphNode T))
    (rnd : ℕ → ℕ) (g : KnowledgeGraph T) (p : Persona) (count : ℕ) : List (Scenario T) :=
  let chunkNodes := sh 0 (g.getNodesByType .chunk)
  if chunkNodes.length = 0 then [] else singleHopLoop sh rnd p count chunkNodes 0 1 0

/--
The edge qualification of `findConnectedNodes`:
`relationship.type === 'hierarchy' || (type === 'similarity' && score >= minSimilarityScore)`.
-/
def isQualified (minSim : ℚ) : Relationship → Bool
  | .hierarchy _ => true
  | .similarity s => minSim ≤ s
  | .entityRel => false

/--
Number of node ids of the graph not yet visited; the termination measure of
the breadth-first loops.
-/
def unvisitedCount {T : Type} (g : KnowledgeGraph T) (vis : List String) : ℕ :=
  ((g.nodes.map GraphNode.id).filter fun i => decide (i ∉ vis)).length

/--
The inner `for (const [neighborId, relationship] of currentNode.relationships)`
loop of `findConnectedNodes`: skip already-visited ids, skip unqualified
relationships, and for each existing chunk-typed target, record the node,
mark it visited and enqueue it at depth `dd`.  Returns (new nodes, updated
visited set, new queue entries) in iteration order.
-/
def fcnScan {T : Type} (g : KnowledgeGraph T) (minSim : ℚ) (dd : ℕ) :
    List (String × Relationship) → List String →
      List (GraphNode T) × List String × List (GraphNode T × ℕ)
  | [], vis => ([], vis, [])
  | p :: rest, vis =>
    if p.1 ∈ vis then fcnScan g minSim dd rest vis
    else if !isQualified minSim p.2 then fcnScan g minSim dd rest vis
    else
      match g.getNode p.1 with
      | some nb =>
        if nb.ntype = .chunk then
          let r := fcnScan g minSim dd rest (p.1 :: vis)
          (nb :: r.1, r.2.1, (nb, dd) :: r.2.2)
        else fcnScan g minSim dd rest vis
      | none => fcnScan g minSim dd rest vis

/--
The `while (queue.length > 0)` loop of `findConnectedNodes`: pop `(cur, d)`;
if `d >= maxHops` continue, otherwise scan the node's relationship entries,
appending newly discovered chunk neighbors to `nodes` and to the queue.
-/
def fcnLoop {T : Type} (g : KnowledgeGraph T) (maxHops : ℕ) (minSim : ℚ) :
    List (GraphNode T × ℕ) → List String → List (GraphNode T) →
      List (GraphNode T) × List String
  | [], vis, acc => (acc, vis)
  | (cur, d) :: rest, vis, acc =>
    if maxHops ≤ d then fcnLoop g maxHops minSim rest vis acc
    else
      let r := fcnScan g minSim (d + 1) cur.relationships vis
      fcnLoop g maxHops minSim (rest ++ r.2.2) r.2.1 (acc ++ r.1)
termination_by q vis acc => unvisitedCount g vis + q.length
decreasing_by
  · simp only [List.length_cons]
    omega
  · have hcount : ∀ (x : String) (vis' : List String), x ∉ vis' →
        ∀ (l : List String), x ∈ l →
          (l.filter fun i => decide (i ∉ x :: vis')).length + 1 ≤
            (l.filter fun i => decide (i ∉ vis')).length := by
      intro x vis' hnx l
      induction l with
      | nil => simp
      | cons a t ih =>
        intro hx
        by_cases hax : a = x
        · subst hax
          rw [List.filter_cons, if_neg (by simp), List.filter_cons,
            if_pos (by simpa using hnx)]
          have mono := (List.monotone_filter_right t
            (p := fun i => decide (i ∉ a :: vis')) (q := fun i => decide (i ∉ vis'))
            (fun b hb => by
              simp only [decide_eq_true_eq, List.mem_cons] at *
              exact fun h => hb (Or.inr h))).length_le
          simpa using Nat.add_le_add_right mono 1
        · have hxt : x ∈ t := by
            rcases List.mem_cons.mp hx with h | h
            · exact absurd h.symm hax
            · exact h
          by_cases hav : a ∈ vis'
          · rw [List.filter_cons, if_neg (by simp [hav]), List.filter_cons,
              if_neg (by simp [hav])]
            exact ih hxt
          · rw [List.filter_cons, if_pos (by simp [hav, hax]), List.filter_cons,
              if_pos (by simpa using hav)]
            simpa using Nat.add_le_add_right (ih hxt) 1
    have hscan : ∀ (dd : ℕ) (rels : List (String × Relationship)) (vis' : List String),
        unvisitedCount g (fcnScan g minSim dd rels vis').2.1
          + (fcnScan g minSim dd rels vis').2.2.length ≤ unvisitedCount g vis' := by
      intro dd rels
      induction rels with
      | nil => intro vis'; simp [fcnScan, unvisitedCount]
      | cons p rest ih =>
        intro vis'
        by_cases h1 : p.1 ∈ vis'
        · rw [show fcnScan g minSim dd (p :: rest) vis' = fcnScan g minSim dd rest vis'
            from by simp [fcnScan, h1]]
          exact ih vis'
        · by_cases h2 : isQualified minSim p.2
          · cases hn : g.getNode p.1 with
            | none =>
              rw [show fcnScan g minSim dd (p :: rest) vis' = fcnScan g minSim dd rest vis'
                from by simp [fcnScan, h1, h2, hn]]
              exact ih vis'
            | some nb =>
              by_cases h3 : nb.ntype = NodeType.chunk
              · rw [show fcnScan g minSim dd (p :: rest) vis' =
                    (nb :: (fcnScan g minSim dd rest (p.1 :: vis')).1,
                      (fcnScan g minSim dd rest (p.1 :: vis')).2.1,
                      (nb, dd) :: (fcnScan g minSim dd rest (p.1 :: vis')).2.2)
                  from by simp [fcnScan, h1, h2, hn, h3]]
                have hid : p.1 ∈ g.nodes.map GraphNode.id := by
                  have hmem := List.mem_of_find?_eq_some hn
                  have hpred := List.find?_some hn
                  simp only [decide_eq_true_eq] at hpred
                  exact List.mem_map.mpr ⟨nb, hmem, hpred⟩
                have hkey := hcount p.1 vis' h1 (g.nodes.map GraphNode.id) hid
                have := ih (p.1 :: vis')
                simp only [List.length_cons, unvisitedCount] at *
                omega
              · rw [show fcnScan g minSim dd (p :: rest) vis' = fcnScan g minSim dd rest vis'
                  from by simp [fcnScan, h1, h2, hn, h3]]
                exact ih vis'
          · rw [show fcnScan g minSim dd (p :: rest) vis' = fcnScan g minSim dd rest vis'
              from by simp [fcnScan, h1, h2]]
            exact ih vis'
    have := hscan (d + 1) cur.relationships vis
    simp only [List.length_append, List.length_cons]
    omega

/--
`findConnectedNodes(graph, startNode, visited)`: BFS from `startNode` with
the shared `visited` set; the start node is recorded and marked visited
before the loop.  Returns the group and the updated visited set.
-/
def findConnectedNodes {T : Type} (g : KnowledgeGraph T) (maxHops : ℕ) (minSim : ℚ)
    (startNode : GraphNode T) (visited : List String) :
    List (GraphNode T) × List String :=
  fcnLoop g maxHops minSim [(startNode, 0)] (startNode.id :: visited) [startNode]

/--
`findConnectedNodeGroups(graph, chunkNodes)`: iterate the chunk nodes with a
shared visited set; keep each discovered group when
`2 <= group.length <= maxHops + 1`.
-/
def fcngAux {T : Type} (g : KnowledgeGraph T) (maxHops : ℕ) (minSim : ℚ) :
    List (GraphNode T) → List String → List (List (GraphNode T))
  | [], _ => []
  | start :: rest, vis =>
    if start.id ∈ vis then fcngAux g maxHops minSim rest vis
    else
      let r := findConnectedNodes g maxHops minSim start vis
      if 2 ≤ r.1.length ∧ r.1.length ≤ maxHops + 1 then
        r.1 :: fcngAux g maxHops minSim rest r.2
      else fcngAux g maxHops minSim rest r.2

/-- `findConnectedNodeGroups` entry point (fresh visited set). -/
def findConnectedNodeGroups {T : Type} (g : KnowledgeGraph T) (maxHops : ℕ)
    (minSim : ℚ) (chunkNodes : List (GraphNode T)) : List (List (GraphNode T)) :=
  fcngAux g maxHops minSim chunkNodes []

/--
The fallback of `MultiHopScenarioBuilder.build` when no qualifying groups
exist: `for (let i = 0; i < chunkNodes.length - 1; i += 2)` pairs adjacent
shuffled chunks (a trailing odd node is dropped; fewer than two nodes yield
no pair).
-/
def pairAdjacent {T : Type} : List (GraphNode T) → List (List (GraphNode T))
  | a :: b :: rest => [a, b] :: pairAdjacent rest
  | _ => []

/--
The `while (scenarios.length < count)` loop of `MultiHopScenarioBuilder.build`:
one scenario per iteration from `connectedGroups[groupIndex % connectedGroups.length]`
(whose runtime value is `undefined` — here `none` — when the group list is
empty, since `groupIndex % 0` is `NaN` in JavaScript), then `groupIndex++`,
reshuffling after each full pass.
-/
def multiHopLoop {T : Type}
    (shG : ℕ → List (List (GraphNode T)) → List (List (GraphNode T)))
    (rnd : ℕ → ℕ) (p : Persona) :
    ℕ → List (List (GraphNode T)) → ℕ → ℕ → ℕ → List (Scenario T)
  | 0, _, _, _, _ => []
  | r + 1, grps, idx, passes, step =>
    let qc := pickQueryConfig rnd step
    let scen : Scenario T := ⟨p, ⟨grps[idx % grps.length]?⟩, ⟨qc.1, qc.2, .multiHop⟩⟩
    if (idx + 1) % grps.length = 0 then
      scen :: multiHopLoop shG rnd p r (shG passes grps) (idx + 1) (passes + 1) (step + 1)
    else
      scen :: multiHopLoop shG rnd p r grps (idx + 1) passes (step + 1)

/--
`MultiHopScenarioBuilder.build` with the default configuration
(`minSimilarityScore = 0.5`, `maxHops = 2`): shuffle the chunk nodes, return
`[]` when there are none; find connected groups, fall back to pairing
adjacent chunks when there are no groups; loop until `count` scenarios.
-/
def multiHopBuild {T : Type} (shN : ℕ → List (GraphNode T) → List (GraphNode T))
    (shG : ℕ → List (List (GraphNode T)) → List (List (GraphNode T)))
    (rnd : ℕ → ℕ) (g : KnowledgeGraph T) (p : Persona) (count : ℕ) : List (Scenario T) :=
  let chunkNodes := shN 0 (g.getNodesByType .chunk)
  if chunkNodes.length = 0 then []
  else
    let groups0 := findConnectedNodeGroups g 2 (1 / 2) chunkNodes
    let groups := if groups0.isEmpty then pairAdjacent chunkNodes else groups0
    multiHopLoop shG rnd p count groups 0 1 0

/--
`generateScenarios(graph, persona, count, type)` with the default builder
configuration: dispatch on the query type.
-/
def generateScenarios {T : Type} (shN : ℕ → List (GraphNode T) → List (GraphNode T))
    (shG : ℕ → List (List (GraphNode T)) → List (List (GraphNode T)))
    (rnd : ℕ → ℕ) (g : KnowledgeGraph T) (p : Persona) (count : ℕ) (qt : QueryType) :
    List (Scenario T) :=
  match qt with
  | .singleHop => singleHopBuild shN rnd g p count
  | .multiHop => multiHopBuild shN shG rnd g p count

/--
Node metadata carrying a summary and its embedding, the refinement
`T & { summary: string; summaryEmbedding: number[] }` established by the
filter in `generatePersonas` before `selectRepresentativeSummaries` runs.
-/
structure SummaryMeta where
  summary : String
  summaryEmbedding : List ℚ
deriving DecidableEq

/--
The cluster scan of `selectRepresentativeSummaries`: walk the existing
clusters in order and append the node to the first cluster whose FIRST
member (`cluster[0]`) has `cosineSimilarity(node, representative) >=
threshold`; report whether a cluster was found.  `cosineSimilarity` comes
from the external `ai` package and is the abstract parameter `cos`.  An
empty cluster cannot occur (clusters are created as singletons and only
grow); it is skipped here, where the JavaScript would fault.
-/
def placeNode (cos : List ℚ → List ℚ → ℚ) (t : ℚ) (node : GraphNode SummaryMeta) :
    List (List (GraphNode SummaryMeta)) → List (List (GraphNode SummaryMeta)) × Bool
  | [] => ([], false)
  | c :: cs =>
    match c.head? with
    | some rep =>
      if t ≤ cos node.metadata.summaryEmbedding rep.metadata.summaryEmbedding then
        ((c ++ [node]) :: cs, true)
      else
        let r := placeNode cos t node cs
        (c :: r.1, r.2)
    | none =>
      let r := placeNode cos t node cs
      (c :: r.1, r.2)

/--
The clustering loop of `selectRepresentativeSummaries`: nodes are processed
in presentation order; a node joins the first sufficiently similar cluster,
otherwise it starts a new singleton cluster at the end.
-/
def buildClusters (cos : List ℚ → List ℚ → ℚ) (t : ℚ)
    (nodes : List (GraphNode SummaryMeta)) : List (List (GraphNode SummaryMeta)) :=
  nodes.foldl (fun clusters node =>
    if (placeNode cos t node clusters).2 then (placeNode cos t node clusters).1
    else (placeNode cos t node clusters).1 ++ [[node]]) []

/--
`cluster.reduce((longest, current) => current.summary.length >
longest.summary.length ? current : longest)`: the member with the longest
summary (the earliest member wins ties), starting from the cluster's head.
-/
def longestOf (h : GraphNode SummaryMeta) (rest : List (GraphNode SummaryMeta)) :
    GraphNode SummaryMeta :=
  rest.foldl (fun longest current =>
    if longest.metadata.summary.length < current.metadata.summary.length then current
    else longest) h

/--
The representative of one cluster: `none` for an empty cluster (unreachable:
the JavaScript `reduce` without initial value would throw there).
-/
def repOf : List (GraphNode SummaryMeta) → Option (GraphNode SummaryMeta × String)
  | [] => none
  | h :: rest => some (longestOf h rest, (longestOf h rest).metadata.summary)

/--
`selectRepresentativeSummaries(nodes, similarityThreshold = 0.75)`: empty
input yields `[]`; otherwise cluster the nodes and select from each cluster
the member with the longest summary, together with its summary.
-/
def selectRepresentativeSummaries (cos : List ℚ → List ℚ → ℚ)
    (nodes : List (GraphNode SummaryMeta)) (t : ℚ := 3 / 4) :
    List (GraphNode SummaryMeta × String) :=
  if nodes.length = 0 then []
  else (buildClusters cos t nodes).filterMap repOf

/--
The body of traverse's neighbor loop:
`for (const neighbor of this.getNeighbors(currentId)) if (!visited.has(neighbor.id)) { visited.add(neighbor.id); queue.push([neighbor.id, depth + 1]) }`.
Returns the updated visited set and the entries pushed (in neighbor order,
all at depth `d`); the caller appends them to the queue.
-/
def enqueueNeighbors {T : Type} (d : ℕ) :
    List (GraphNode T) → List String → List String × List (String × ℕ)
  | [], vis => (vis, [])
  | nb :: ns, vis =>
    if nb.id ∈ vis then enqueueNeighbors d ns vis
    else
      ((enqueueNeighbors d ns (nb.id :: vis)).1,
        (nb.id, d) :: (enqueueNeighbors d ns (nb.id :: vis)).2)

/--
The `while (queue.length > 0)` loop of `KnowledgeGraph.traverse`, with each
yielded node paired with the depth at which it was popped (the depth is the
second component of the queue entry the source already carries; `traverse`
below projects the nodes out).  Pop `(currentId, depth)`; skip missing
nodes; yield; when `depth < maxDepth`, enqueue the unvisited neighbors at
`depth + 1`.
-/
def traverseAuxD {T : Type} (g : KnowledgeGraph T) (maxDepth : ℕ) :
    List (String × ℕ) → List String → List (GraphNode T × ℕ)
  | [], _ => []
  | (cid, d) :: rest, vis =>
    match g.getNode cid with
    | none => traverseAuxD g maxDepth rest vis
    | some node =>
      if d < maxDepth then
        (node, d) :: traverseAuxD g maxDepth
          (rest ++ (enqueueNeighbors (d + 1) (g.neighborsOf cid) vis).2)
          (enqueueNeighbors (d + 1) (g.neighborsOf cid) vis).1
      else (node, d) :: traverseAuxD g maxDepth rest vis
termination_by q vis => unvisitedCount g vis + q.length
decreasing_by
  · simp only [List.length_cons]
    omega
  · have hcount : ∀ (x : String) (vis' : List String), x ∉ vis' →
        ∀ (l : List String), x ∈ l →
          (l.filter fun i => decide (i ∉ x :: vis')).length + 1 ≤
            (l.filter fun i => decide (i ∉ vis')).length := by
      intro x vis' hnx l
      induction l with
      | nil => simp
      | cons a t ih =>
        intro hx
        by_cases hax : a = x
        · subst hax
          rw [List.filter_cons, if_neg (by simp), List.filter_cons,
            if_pos (by simpa using hnx)]
          have mono := (List.monotone_filter_right t
            (p := fun i => decide (i ∉ a :: vis')) (q := fun i => decide (i ∉ vis'))
            (fun b hb => by
              simp only [decide_eq_true_eq, List.mem_cons] at *
              exact fun h => hb (Or.inr h))).length_le
          simpa using Nat.add_le_add_right mono 1
        · have hxt : x ∈ t := by
            rcases List.mem_cons.mp hx with h | h
            · exact absurd h.symm hax
            · exact h
          by_cases hav : a ∈ vis'
          · rw [List.filter_cons, if_neg (by simp [hav]), List.filter_cons,
              if_neg (by simp [hav])]
            exact ih hxt
          · rw [List.filter_cons, if_pos (by simp [hav, hax]), List.filter_cons,
              if_pos (by simpa using hav)]
            simpa using Nat.add_le_add_right (ih hxt) 1
    have henq : ∀ (dd : ℕ) (ns : List (GraphNode T)) (vis' : List String),
        (∀ nb ∈ ns, nb.id ∈ g.nodes.map GraphNode.id) →
        unvisitedCount g (enqueueNeighbors dd ns vis').1
          + (enqueueNeighbors dd ns vis').2.length ≤ unvisitedCount g vis' := by
      intro dd ns
      induction ns with
      | nil => intro vis' _; simp [enqueueNeighbors, unvisitedCount]
      | cons nb ns ih =>
        intro vis' hids
        by_cases hmem : nb.id ∈ vis'
        · rw [show enqueueNeighbors dd (nb :: ns) vis' = enqueueNeighbors dd ns vis'
            from by simp [enqueueNeighbors, hmem]]
          exact ih vis' (fun x hx => hids x (List.mem_cons_of_mem _ hx))
        · rw [show enqueueNeighbors dd (nb :: ns) vis' =
              ((enqueueNeighbors dd ns (nb.id :: vis')).1,
                (nb.id, dd) :: (enqueueNeighbors dd ns (nb.id :: vis')).2)
            from by simp [enqueueNeighbors, hmem]]
          have hkey := hcount nb.id vis' hmem (g.nodes.map GraphNode.id)
            (hids nb (List.mem_cons_self _ _))
          have := ih (nb.id :: vis') (fun x hx => hids x (List.mem_cons_of_mem _ hx))
          simp only [List.length_cons, unvisitedCount] at *
          omega
    have hnbids : ∀ nb ∈ g.neighborsOf cid, nb.id ∈ g.nodes.map GraphNode.id := by
      intro nb hnbm
      rw [KnowledgeGraph.neighborsOf] at hnbm
      cases hg : g.getNode cid with
      | none => rw [hg] at hnbm; simp at hnbm
      | some n =>
        rw [hg] at hnbm
        obtain ⟨p, _, hp⟩ := List.mem_filterMap.mp hnbm
        exact List.mem_map.mpr ⟨nb, List.mem_of_find?_eq_some hp, rfl⟩
    have := henq (d + 1) (g.neighborsOf cid) vis hnbids
    simp only [List.length_append, List.length_cons]
    omega

/--
`traverse(id, maxDepth)`: breadth-first traversal.  The source seeds
`visited = {id}` and `queue = [[id, 0]]` and yields nodes; the auxiliary
loop above additionally records the pop depth, projected away here.  (The
JavaScript default `maxDepth = Infinity` is not modelled; the claims use a
finite depth.)
-/
def traverse {T : Type} (g : KnowledgeGraph T) (i : String) (maxDepth : ℕ) :
    List (GraphNode T) :=
  (traverseAuxD g maxDepth [(i, 0)] [i]).map Prod.fst

/--
The edge relation of the traversal: `b` is the id of one of `a`'s
neighbors, as enumerated by `getNeighbors` (relationship target present in
the graph).
-/
def hasEdgeB {T : Type} (g : KnowledgeGraph T) (a b : String) : Bool :=
  (g.neighborsOf a).any fun nb => nb.id = b

/-- `ReachesIn g k a c`: a path of at most `k` traversal edges from `a` to `c`. -/
inductive ReachesIn {T : Type} (g : KnowledgeGraph T) : ℕ → String → String → Prop where
  | refl (n : ℕ) (a : String) : ReachesIn g n a a
  | step {n : ℕ} {a b c : String} :
      hasEdgeB g a b = true → ReachesIn g n b c → ReachesIn g (n + 1) a c

/--
The breadth-first loop invariant: `acc` is the list of already-yielded
(node, depth) pairs, `vis` the visited set and `q` the queue.
-/
structure TravInv {T : Type} (g : KnowledgeGraph T) (maxDepth : ℕ) (i : String)
    (acc : List (GraphNode T × ℕ)) (vis : List String)
    (q : List (String × ℕ)) : Prop where
  vis_eq : ∀ x, x ∈ vis ↔ (∃ p ∈ acc, p.1.id = x) ∨ ∃ p ∈ q, p.1 = x
  nodup : (acc.map (fun p => p.1.id) ++ q.map Prod.fst).Nodup
  acc_node : ∀ p ∈ acc, g.getNode p.1.id = some p.1
  acc_reach : ∀ p ∈ acc, ReachesIn g p.2 i p.1.id ∧ p.2 ≤ maxDepth
  q_node : ∀ p ∈ q, (g.getNode p.1).isSome
  q_reach : ∀ p ∈ q, ReachesIn g p.2 i p.1 ∧ p.2 ≤ maxDepth
  q_sorted : q.Pairwise fun p r => p.2 ≤ r.2
  q_window : ∀ p ∈ q, ∀ r ∈ q, p.2 ≤ r.2 + 1
  acc_le_q : ∀ p ∈ acc, ∀ r ∈ q, p.2 ≤ r.2
  closed : ∀ p ∈ acc, p.2 < maxDepth → ∀ b, hasEdgeB g p.1.id b = true →
    ∃ e ≤ p.2 + 1, (∃ nb, g.getNode b = some nb ∧ (nb, e) ∈ acc) ∨ (b, e) ∈ q

/--
What the finished traversal output satisfies: distinct ids; every entry is
the graph's node at its id, reached within its recorded depth, which is at
most `maxDepth`; and below `maxDepth` the output is closed under traversal
edges with depths growing by at most one.
-/
def TravOut {T : Type} (g : KnowledgeGraph T) (maxDepth : ℕ) (i : String)
    (out : List (GraphNode T × ℕ)) : Prop :=
  (out.map fun p => p.1.id).Nodup
  ∧ (∀ p ∈ out, g.getNode p.1.id = some p.1 ∧ ReachesIn g p.2 i p.1.id ∧ p.2 ≤ maxDepth)
  ∧ ∀ p ∈ out, p.2 < maxDepth → ∀ b, hasEdgeB g p.1.id b = true →
      ∃ e ≤ p.2 + 1, ∃ nb, g.getNode b = some nb ∧ (nb, e) ∈ out

/--
Node metadata of the `relationship` transform: `T & { embeddings?: Embedding }`.
Only the optional `embeddings` field is accessed by the transform.
-/
structure EmbMeta where
  embeddings : Option (List ℚ)
deriving DecidableEq

/--
The `as Embedding` cast applied to `node.metadata.embeddings` inside the
transform: the filter guarantees the field is present, so the default is
unreachable.
-/
def embOf (m : EmbMeta) : List ℚ := m.embeddings.getD []

/--
The chunk nodes carrying embeddings, in enumeration order
(`graph.getNodes().filter(node => node.type === 'chunk' && node.metadata.embeddings)`;
an array is always truthy, `undefined` is falsy).
-/
def chunkEmbNodes (g : KnowledgeGraph EmbMeta) : List (GraphNode EmbMeta) :=
  g.getNodes.filter fun n => n.ntype = NodeType.chunk ∧ n.metadata.embeddings.isSome

/--
The inner `for (let j = i + 1; ...)` loop of the `relationship` transform
for a fixed `nodeI = a`: for each later node `b`, compute the similarity
and add a one-directional `similarity` edge from `a` to `b` when it reaches
the threshold.  A thrown `addRelationship` error propagates.
-/
def relInner (cos : List ℚ → List ℚ → ℚ) (t : ℚ) (a : GraphNode EmbMeta) :
    List (GraphNode EmbMeta) → KnowledgeGraph EmbMeta →
      Except String (KnowledgeGraph EmbMeta)
  | [], g => .ok g
  | b :: bs, g =>
    if t ≤ cos (embOf a.metadata) (embOf b.metadata) then
      match g.addRelationship a.id b.id
        (.similarity (cos (embOf a.metadata) (embOf b.metadata))) with
      | .ok g' => relInner cos t a bs g'
      | .error e => .error e
    else relInner cos t a bs g

/--
The outer `for (let i = 0; ...)` loop of the `relationship` transform: each
node is paired with every node after it in the filtered enumeration.
-/
def relOuter (cos : List ℚ → List ℚ → ℚ) (t : ℚ) :
    List (GraphNode EmbMeta) → KnowledgeGraph EmbMeta →
      Except String (KnowledgeGraph EmbMeta)
  | [], g => .ok g
  | a :: rest, g =>
    match relInner cos t a rest g with
    | .ok g' => relOuter cos t rest g'
    | .error e => .error e

/--
The `apply` of the `relationship(threshold = 0.7)` transform: filter the
chunk nodes with embeddings, return the graph unchanged when there are
none, otherwise add a similarity edge for every qualifying ordered pair.
-/
def relationshipApply (cos : List ℚ → List ℚ → ℚ) (t : ℚ)
    (g : KnowledgeGraph EmbMeta) : Except String (KnowledgeGraph EmbMeta) :=
  if (chunkEmbNodes g).length = 0 then .ok g
  else relOuter cos t (chunkEmbNodes g) g

/--
The relationship map produced by one source node's inner-loop pass, used to
state what `relInner` does: fold the conditional `Map.set` over the later
nodes.
-/
def relPass (cos : List ℚ → List ℚ → ℚ) (t : ℚ) (a : GraphNode EmbMeta)
    (bs : List (GraphNode EmbMeta)) (m : List (String × Relationship)) :
    List (String × Relationship) :=
  bs.foldl (fun m' b =>
    if t ≤ cos (embOf a.metadata) (embOf b.metadata) then
      mapSet m' b.id (.similarity (cos (embOf a.metadata) (embOf b.metadata)))
    else m') m

/-- Every field of a node except its relationship map. -/
def nodeCore {T : Type} (n : GraphNode T) :
    String × NodeType × Option String × Option String × Option String × Option String × T :=
  (n.id, n.ntype, n.content, n.name, n.entityType, n.description, n.metadata)

/-- An embedding-carrying chunk node for the transform witness. -/
def exEmbA : GraphNode EmbMeta := ⟨"ea", .chunk, some "A", none, none, none, ⟨some [1]⟩, []⟩

/-- A second embedding-carrying chunk node, identical embedding. -/
def exEmbB : GraphNode EmbMeta := ⟨"eb", .chunk, some "B", none, none, none, ⟨some [1]⟩, []⟩

/-- A two-chunk graph with embeddings for the transform witness. -/
def exEmbGraph : KnowledgeGraph EmbMeta := ⟨[exEmbA, exEmbB]⟩

/-- A concrete stand-in for the abstract cosine similarity, for witnesses. -/
def cosW (a b : List ℚ) : ℚ := a.headD 0 * b.headD 0

/-- Sample summary-bearing nodes for the clustering witness. -/
def exSumA : GraphNode SummaryMeta :=
  ⟨"pa", .chunk, none, none, none, none, ⟨"summary A", [1]⟩, []⟩

/-- Second sample summary-bearing node, similar to `exSumA`. -/
def exSumB : GraphNode SummaryMeta :=
  ⟨"pb", .chunk, none, none, none, none, ⟨"longer summary B", [1]⟩, []⟩

/-- Third sample summary-bearing node, dissimilar to both. -/
def exSumC : GraphNode SummaryMeta :=
  ⟨"pc", .chunk, none, none, none, none, ⟨"summary C", [0]⟩, []⟩

/-- A sample persona. -/
def exPersona : Persona := ⟨"Engineer", "A software engineer"⟩

/-- A chunk node with no relationships. -/
def exC1 : GraphNode Unit := ⟨"c1", .chunk, some "only chunk", none, none, none, (), []⟩

/-- A graph holding exactly one chunk node with no relationships. -/
def exChunkOnly : KnowledgeGraph Unit := ⟨[exC1]⟩

/-- A sample chunk node used to instantiate theorems on concrete inputs. -/
def exNodeA : GraphNode Unit :=
  ⟨"a", .chunk, some "content a", none, none, none, (), [("b", .similarity 1)]⟩

/-- A second sample chunk node. -/
def exNodeB : GraphNode Unit :=
  ⟨"b", .chunk, some "content b", none, none, none, (), []⟩

/-- A sample two-node graph with one edge from `a` to `b`. -/
def exGraph : KnowledgeGraph Unit := ⟨[exNodeA, exNodeB]⟩

section MapLemmas

variable {β : Type}

theorem mapGet_eq_none_of_not_mem {m : List (String × β)} {k : String}
    (h : k ∉ m.map Prod.fst) : mapGet m k = none := by
  induction m with
  | nil => rfl
  | cons p rest ih =>
    simp only [List.map_cons, List.mem_cons] at h
    push_neg at h
    simp only [mapGet, if_neg (fun hx : p.1 = k => h.1 hx.symm)]
    exact ih h.2

theorem mapGet_mapDelete_self (m : List (String × β)) (k : String)
    (h : (m.map Prod.fst).Nodup) : mapGet (mapDelete m k) k = none := by
  induction m with
  | nil => rfl
  | cons p rest ih =>
    obtain ⟨k', v⟩ := p
    simp only [List.map_cons, List.nodup_cons] at h
    by_cases hk : k' = k
    · subst hk
      simp only [mapDelete, if_pos rfl]
      exact mapGet_eq_none_of_not_mem h.1
    · simp only [mapDelete, if_neg hk, mapGet, if_neg hk]
      exact ih h.2

theorem mapGet_mapDelete_ne (m : List (String × β)) (k t : String) (h : t ≠ k) :
    mapGet (mapDelete m k) t = mapGet m t := by
  induction m with
  | nil => rfl
  | cons p rest ih =>
    obtain ⟨k', v⟩ := p
    by_cases hk : k' = k
    · subst hk
      rw [show mapDelete ((k', v) :: rest) k' = rest from by simp [mapDelete]]
      simp only [mapGet, if_neg (fun hx : k' = t => h hx.symm)]
    · simp only [mapDelete, if_neg hk, mapGet]
      by_cases ht : k' = t
      · simp [ht]
      · simp only [if_neg ht]
        exact ih

theorem mapGet_mapSet_self (m : List (String × β)) (k : String) (v : β) :
    mapGet (mapSet m k v) k = some v := by
  induction m with
  | nil => simp [mapSet, mapGet]
  | cons p rest ih =>
    obtain ⟨k', w⟩ := p
    by_cases hk : k' = k
    · simp [mapSet, hk, mapGet]
    · simp only [mapSet, if_neg hk, mapGet, if_neg hk]
      exact ih

theorem mapGet_mapSet_ne (m : List (String × β)) (k t : String) (v : β) (h : t ≠ k) :
    mapGet (mapSet m k v) t = mapGet m t := by
  induction m with
  | nil => simp [mapSet, mapGet, if_neg (fun hx : k = t => h hx.symm)]
  | cons p rest ih =>
    obtain ⟨k', w⟩ := p
    by_cases hk : k' = k
    · subst hk
      simp [mapSet, mapGet, if_neg (fun hx : k' = t => h hx.symm)]
    · simp only [mapSet, if_neg hk, mapGet]
      by_cases ht : k' = t
      · simp [ht]
      · simp only [if_neg ht]
        exact ih

theorem mem_mapSet_self (m : List (String × β)) (k : String) (v : β) :
    (k, v) ∈ mapSet m k v := by
  induction m with
  | nil => simp [mapSet]
  | cons p rest ih =>
    obtain ⟨k', w⟩ := p
    by_cases hk : k' = k
    · simp [mapSet, hk]
    · simp only [mapSet, if_neg hk]
      exact List.mem_cons_of_mem _ ih

end MapLemmas

namespace KnowledgeGraph

variable {T : Type}

theorem mem_of_mem_nodeDelete {l : List (GraphNode T)} {i : String} {n : GraphNode T} :
    n ∈ nodeDelete l i → n ∈ l := by
  induction l with
  | nil => simp [nodeDelete]
  | cons m rest ih =>
    intro h
    by_cases hm : m.id = i
    · rw [show nodeDelete (m :: rest) i = rest from by simp [nodeDelete, hm]] at h
      exact List.mem_cons_of_mem _ h
    · rw [show nodeDelete (m :: rest) i = m :: nodeDelete rest i from by
        simp [nodeDelete, hm]] at h
      rw [List.mem_cons] at h
      rcases h with h | h
      · exact h ▸ List.mem_cons_self _ _
      · exact List.mem_cons_of_mem _ (ih h)

theorem nodeDelete_no_id {l : List (GraphNode T)} {i : String} :
    (l.map GraphNode.id).Nodup → ∀ n ∈ nodeDelete l i, n.id ≠ i := by
  induction l with
  | nil => simp [nodeDelete]
  | cons m rest ih =>
    intro h
    simp only [List.map_cons, List.nodup_cons, List.mem_map] at h
    by_cases hm : m.id = i
    · rw [show nodeDelete (m :: rest) i = rest from by simp [nodeDelete, hm]]
      intro n hn hni
      exact h.1 ⟨n, hn, by rw [hni, hm]⟩
    · rw [show nodeDelete (m :: rest) i = m :: nodeDelete rest i from by
        simp [nodeDelete, hm]]
      intro n hn
      rw [List.mem_cons] at hn
      rcases hn with hn | hn
      · exact hn ▸ hm
      · exact ih h.2 n hn

theorem find?_nodeDelete_ne (l : List (GraphNode T)) (i j : String) (h : j ≠ i) :
    (nodeDelete l i).find? (fun n => n.id = j) = l.find? (fun n => n.id = j) := by
  induction l with
  | nil => rfl
  | cons m rest ih =>
    by_cases hm : m.id = i
    · have hmj : ¬(m.id = j) := fun hx => h (hx ▸ hm ▸ rfl)
      rw [show nodeDelete (m :: rest) i = rest from by simp [nodeDelete, hm],
        List.find?_cons_of_neg _ (by simpa using hmj)]
    · rw [show nodeDelete (m :: rest) i = m :: nodeDelete rest i from by simp [nodeDelete, hm]]
      by_cases hmj : m.id = j
      · rw [List.find?_cons_of_pos _ (by simpa using hmj),
          List.find?_cons_of_pos _ (by simpa using hmj)]
      · rw [List.find?_cons_of_neg _ (by simpa using hmj),
          List.find?_cons_of_neg _ (by simpa using hmj)]
        exact ih

theorem find?_map_preserving (l : List (GraphNode T)) (j : String)
    (f : GraphNode T → GraphNode T) (hf : ∀ n, (f n).id = n.id) :
    (l.map f).find? (fun n => n.id = j) = (l.find? (fun n => n.id = j)).map f := by
  induction l with
  | nil => rfl
  | cons m rest ih =>
    simp only [List.map_cons]
    by_cases hmj : m.id = j
    · rw [List.find?_cons_of_pos _ (by simp [hf, hmj]),
        List.find?_cons_of_pos _ (by simpa using hmj), Option.map_some']
    · rw [List.find?_cons_of_neg _ (by simp [hf, hmj]),
        List.find?_cons_of_neg _ (by simpa using hmj)]
      exact ih

/--
Claim C6: for every graph (with the `Map` class invariants: unique node ids
and unique relationship keys per node) and every id, after `removeNode(id)`
the node with that id is absent, no remaining node has a relationship entry
keyed by that id, and every other node keeps all its fields, with its edges
to targets other than the removed id unchanged.
-/
theorem removeNode_spec (g : KnowledgeGraph T) (i : String)
    (hids : (g.nodes.map GraphNode.id).Nodup)
    (hrels : ∀ n ∈ g.nodes, (n.relationships.map Prod.fst).Nodup) :
    (g.removeNode i).getNode i = none
    ∧ (∀ n ∈ (g.removeNode i).nodes, mapGet n.relationships i = none)
    ∧ (∀ j, j ≠ i → (g.removeNode i).getNode j =
        (g.getNode j).map fun n => { n with relationships := mapDelete n.relationships i })
    ∧ (∀ j t, j ≠ i → t ≠ i →
        ((g.removeNode i).getNode j).map (fun n => mapGet n.relationships t) =
          (g.getNode j).map fun n => mapGet n.relationships t) := by
  have hmapped : (g.removeNode i).nodes =
      (nodeDelete g.nodes i).map fun n => { n with relationships := mapDelete n.relationships i } := rfl
  refine ⟨?_, ?_, ?_, ?_⟩
  · rw [getNode, hmapped, List.find?_eq_none]
    intro n hn
    simp only [List.mem_map] at hn
    obtain ⟨m, hm, rfl⟩ := hn
    simpa using nodeDelete_no_id hids m hm
  · intro n hn
    rw [hmapped] at hn
    simp only [List.mem_map] at hn
    obtain ⟨m, hm, rfl⟩ := hn
    exact mapGet_mapDelete_self _ _ (hrels m (mem_of_mem_nodeDelete hm))
  · intro j hj
    rw [getNode, hmapped,
      find?_map_preserving (nodeDelete g.nodes i) j
        (fun n => { n with relationships := mapDelete n.relationships i }) (fun n => rfl),
      find?_nodeDelete_ne _ _ _ hj]
    rfl
  · intro j t hj ht
    have h3 : (g.removeNode i).getNode j =
        (g.getNode j).map fun n => { n with relationships := mapDelete n.relationships i } := by
      rw [getNode, hmapped,
        find?_map_preserving (nodeDelete g.nodes i) j
          (fun n => { n with relationships := mapDelete n.relationships i }) (fun n => rfl),
        find?_nodeDelete_ne _ _ _ hj]
      rfl
    rw [h3]
    cases g.getNode j with
    | none => rfl
    | some n => simp [mapGet_mapDelete_ne _ _ _ ht]

/--
Witness for claim C6: `removeNode_spec` instantiated on a concrete two-node
graph, removing node `b`.
-/
theorem removeNode_spec_witness :
    ((exGraph.nodes.map GraphNode.id).Nodup
      ∧ ∀ n ∈ exGraph.nodes, (n.relationships.map Prod.fst).Nodup)
    ∧ ((exGraph.removeNode "b").getNode "b" = none
      ∧ (∀ n ∈ (exGraph.removeNode "b").nodes, mapGet n.relationships "b" = none)
      ∧ (∀ j, j ≠ "b" → (exGraph.removeNode "b").getNode j =
          (exGraph.getNode j).map fun n =>
            { n with relationships := mapDelete n.relationships "b" })
      ∧ (∀ j t, j ≠ "b" → t ≠ "b" →
          ((exGraph.removeNode "b").getNode j).map (fun n => mapGet n.relationships t) =
            (exGraph.getNode j).map fun n => mapGet n.relationships t)) :=
  ⟨⟨by decide, by decide⟩, removeNode_spec exGraph "b" (by decide) (by decide)⟩

theorem getNode_nodeUpdate (l : List (GraphNode T)) (i j : String)
    (f : GraphNode T → GraphNode T) (hf : ∀ n, (f n).id = n.id) :
    (nodeUpdate l i f).find? (fun n => n.id = j) =
      if j = i then (l.find? (fun n => n.id = i)).map f
      else l.find? (fun n => n.id = j) := by
  induction l with
  | nil => by_cases hj : j = i <;> simp [nodeUpdate, hj]
  | cons m rest ih =>
    by_cases hm : m.id = i
    · rw [show nodeUpdate (m :: rest) i f = f m :: rest from by simp [nodeUpdate, hm]]
      by_cases hj : j = i
      · subst hj
        rw [if_pos rfl, List.find?_cons_of_pos _ (by simp [hf, hm]),
          List.find?_cons_of_pos _ (by simp [hm]), Option.map_some']
      · rw [if_neg hj, List.find?_cons_of_neg _ (by simp [hf]; exact fun hx => hj (hx ▸ hm ▸ rfl)),
          List.find?_cons_of_neg _ (by simp; exact fun hx => hj (hx ▸ hm ▸ rfl))]
    · rw [show nodeUpdate (m :: rest) i f = m :: nodeUpdate rest i f from by
        simp [nodeUpdate, hm]]
      by_cases hj : j = i
      · subst hj
        rw [if_pos rfl, List.find?_cons_of_neg _ (by simpa using hm),
          List.find?_cons_of_neg _ (by simpa using hm)]
        simpa using ih
      · by_cases hmj : m.id = j
        · rw [List.find?_cons_of_pos _ (by simp [hmj]), if_neg hj,
            List.find?_cons_of_pos _ (by simp [hmj])]
        · rw [List.find?_cons_of_neg _ (by simpa using hmj), if_neg hj,
            List.find?_cons_of_neg _ (by simpa using hmj)]
          simpa [hj] using ih

/--
Claim C8: for every graph and every pair of ids, `addRelationship` fails
with a not-found error when either endpoint is absent (the graph is returned
unchanged: the error is raised before any mutation), and when both endpoints
exist it succeeds and afterwards the target node appears in
`getNeighbors(source)`.
-/
theorem addRelationship_spec (g : KnowledgeGraph T) (s t : String) (r : Relationship) :
    ((g.getNode s = none ∨ g.getNode t = none) → ∃ e, g.addRelationship s t r = .error e)
    ∧ (g.getNode s ≠ none → g.getNode t ≠ none →
        ∃ g', g.addRelationship s t r = .ok g' ∧
          ∃ nbrs, g'.getNeighbors s none = .ok nbrs ∧ ∃ nb ∈ nbrs, nb.id = t) := by
  constructor
  · intro h
    cases hs : g.getNode s with
    | none => exact ⟨"Source node " ++ s ++ " not found", by simp [addRelationship, hs]⟩
    | some ns =>
      cases ht : g.getNode t with
      | none => exact ⟨"Target node " ++ t ++ " not found", by simp [addRelationship, hs, ht]⟩
      | some nt =>
        rcases h with h | h
        · exact absurd hs (h ▸ by simp)
        · exact absurd ht (h ▸ by simp)
  · intro hs ht
    obtain ⟨ns, hns⟩ := Option.ne_none_iff_exists'.mp hs
    obtain ⟨nt, hnt⟩ := Option.ne_none_iff_exists'.mp ht
    have hnsid : ns.id = s := by
      have := List.find?_some hns
      simpa using this
    have hntid : nt.id = t := by
      have := List.find?_some hnt
      simpa using this
    refine ⟨⟨nodeUpdate g.nodes s fun n =>
      { n with relationships := mapSet n.relationships t r }⟩, by
        simp [addRelationship, hns, hnt], ?_⟩
    set f : GraphNode T → GraphNode T :=
      fun n => { n with relationships := mapSet n.relationships t r } with hf
    have hfid : ∀ n, (f n).id = n.id := fun n => rfl
    set g' : KnowledgeGraph T := ⟨nodeUpdate g.nodes s f⟩ with hg'
    have hget : ∀ j, g'.getNode j =
        if j = s then (g.getNode s).map f else g.getNode j := by
      intro j
      rw [show g'.getNode j = (nodeUpdate g.nodes s f).find? (fun n => n.id = j) from rfl,
        getNode_nodeUpdate g.nodes s j f hfid]
      rfl
    have hgets : g'.getNode s = some (f ns) := by rw [hget s, if_pos rfl, hns, Option.map_some']
    have hgett : ∃ nb, g'.getNode t = some nb ∧ nb.id = t := by
      by_cases hts : t = s
      · exact ⟨f ns, by rw [hts, hgets], by rw [hfid, hnsid, hts]⟩
      · exact ⟨nt, by rw [hget t, if_neg hts, hnt], hntid⟩
    obtain ⟨nb, hnb, hnbid⟩ := hgett
    refine ⟨(mapSet ns.relationships t r).filterMap (fun p => g'.getNode p.1),
      by simp [KnowledgeGraph.getNeighbors, hgets], ?_⟩
    refine ⟨nb, ?_, hnbid⟩
    apply List.mem_filterMap.mpr
    exact ⟨(t, r), mem_mapSet_self _ _ _, hnb⟩

/--
Witness for claim C8: `addRelationship_spec` instantiated on the concrete
two-node graph, adding an edge from `b` to `a`.
-/
theorem addRelationship_spec_witness :
    (exGraph.getNode "b" ≠ none ∧ exGraph.getNode "a" ≠ none)
    ∧ (∃ g', exGraph.addRelationship "b" "a" (.hierarchy .parent) = .ok g' ∧
        ∃ nbrs, g'.getNeighbors "b" none = .ok nbrs ∧ ∃ nb ∈ nbrs, nb.id = "a") :=
  ⟨⟨by decide, by decide⟩,
    (addRelationship_spec exGraph "b" "a" (.hierarchy .parent)).2 (by decide) (by decide)⟩

end KnowledgeGraph

/--
Claim C1 (code defect): the round-trip
`KnowledgeGraph.fromJSON(g.toJSON())` does NOT succeed for a non-empty
graph.  `KnowledgeGraph.fromJSON` calls the abstract base class's static
`GraphNode.fromJSON`, which unconditionally throws
`'Method not implemented.'`; the variant-dispatching subclass
deserializers are never invoked.  Evaluated here on a concrete two-node
graph: deserializing its own serialization yields the error.
-/
theorem fromJSON_toJSON_fails :
    KnowledgeGraph.fromJSON (KnowledgeGraph.toJSON exGraph) =
      .error "Method not implemented." := rfl

theorem foldl_add_eq {α : Type} [AddCommMonoid α] (c : α) (l : List α) :
    l.foldl (· + ·) c = c + l.sum := by
  induction l generalizing c with
  | nil => simp
  | cons x xs ih => rw [List.foldl_cons, ih, List.sum_cons, add_assoc]

theorem sumInt_eq_sum (l : List ℤ) : sumInt l = l.sum := by
  rw [sumInt, foldl_add_eq, zero_add]

theorem totalWeight_eq_sum (ws : List ℚ) : totalWeight ws = ws.sum := by
  rw [totalWeight, foldl_add_eq, zero_add]

theorem sum_set_getD_add (l : List ℤ) (i : ℕ) (d : ℤ) (h : i < l.length) :
    (l.set i (l.getD i 0 + d)).sum = l.sum + d := by
  induction l generalizing i with
  | nil => simp at h
  | cons x xs ih =>
    cases i with
    | zero => simp [List.set_cons_zero, List.getD_cons_zero]; ring
    | succ n =>
      rw [List.getD_cons_succ, List.set_cons_succ, List.sum_cons, List.sum_cons,
        ih n (by simpa using h)]
      ring

theorem foldl_largest (allocs : List ℤ) (pairs : List (ℕ × ℤ)) (a : ℕ)
    (hcons : ∀ p ∈ pairs, allocs.getD p.1 0 = p.2) :
    (pairs.foldl (fun maxIdx p => if p.2 > allocs.getD maxIdx 0 then p.1 else maxIdx) a = a
      ∨ pairs.foldl (fun maxIdx p => if p.2 > allocs.getD maxIdx 0 then p.1 else maxIdx) a
          ∈ pairs.map Prod.fst)
    ∧ allocs.getD a 0 ≤
        allocs.getD (pairs.foldl
          (fun maxIdx p => if p.2 > allocs.getD maxIdx 0 then p.1 else maxIdx) a) 0
    ∧ ∀ p ∈ pairs, p.2 ≤
        allocs.getD (pairs.foldl
          (fun maxIdx p => if p.2 > allocs.getD maxIdx 0 then p.1 else maxIdx) a) 0 := by
  induction pairs generalizing a with
  | nil => exact ⟨Or.inl rfl, le_refl _, by simp⟩
  | cons p rest ih =>
    have hp := hcons p (List.mem_cons_self _ _)
    have hrest : ∀ q ∈ rest, allocs.getD q.1 0 = q.2 :=
      fun q hq => hcons q (List.mem_cons_of_mem _ hq)
    rw [List.foldl_cons]
    by_cases hgt : p.2 > allocs.getD a 0
    · rw [if_pos hgt]
      obtain ⟨hmem, hle, hall⟩ := ih p.1 hrest
      refine ⟨?_, ?_, ?_⟩
      · refine Or.inr ?_
        rw [List.map_cons]
        rcases hmem with h | h
        · rw [h]
          exact List.mem_cons_self _ _
        · exact List.mem_cons_of_mem _ h
      · exact le_trans (le_of_lt hgt) (hp ▸ hle)
      · intro q hq
        rw [List.mem_cons] at hq
        rcases hq with rfl | hq
        · exact hp ▸ hle
        · exact hall q hq
    · rw [if_neg hgt]
      obtain ⟨hmem, hle, hall⟩ := ih a hrest
      refine ⟨?_, hle, ?_⟩
      · rcases hmem with h | h
        · exact Or.inl h
        · refine Or.inr ?_
          rw [List.map_cons]
          exact List.mem_cons_of_mem _ h
      · intro q hq
        rw [List.mem_cons] at hq
        rcases hq with rfl | hq
        · exact le_trans (not_lt.mp hgt) hle
        · exact hall q hq

theorem getD_consistent_enum (allocs : List ℤ) :
    ∀ p ∈ allocs.enum, allocs.getD p.1 0 = p.2 := by
  intro p hp
  rw [List.mem_enum_iff_getElem?] at hp
  rw [List.getD_eq_getElem?_getD, hp, Option.getD_some]

theorem largestIndex_lt (allocs : List ℤ) (h : allocs ≠ []) :
    largestIndex allocs < allocs.length := by
  obtain ⟨hmem, -, -⟩ := foldl_largest allocs allocs.enum 0 (getD_consistent_enum allocs)
  rcases hmem with heq | hin
  · have h0 : largestIndex allocs = 0 := heq
    rw [h0]
    exact List.length_pos.mpr h
  · have hin' : largestIndex allocs ∈ allocs.enum.map Prod.fst := hin
    rw [List.enum_map_fst] at hin'
    exact List.mem_range.mp hin'

theorem getD_le_largestIndex (allocs : List ℤ) :
    ∀ j < allocs.length, allocs.getD j 0 ≤ allocs.getD (largestIndex allocs) 0 := by
  intro j hj
  obtain ⟨_, _, hall⟩ := foldl_largest allocs allocs.enum 0 (getD_consistent_enum allocs)
  have hjmem : (j, allocs.getD j 0) ∈ allocs.enum := by
    rw [List.mem_enum_iff_getElem?, List.getD_eq_getElem?_getD,
      List.getElem?_eq_getElem hj]
    rfl
  exact hall (j, allocs.getD j 0) hjmem

/--
Claim C2: with at least one synthesizer and positive total weight, the
allocations are `round(count * weight / totalWeight)` per synthesizer; the
drift-corrected allocations sum exactly to `count`, the correction index is
a valid index holding a maximal allocation, and every other synthesizer
keeps its rounded allocation.
-/
theorem synthesize_allocation_spec (ws : List ℚ) (count : ℕ)
    (hw : ws ≠ []) (hW : 0 < totalWeight ws) :
    sumInt (correctedAllocations count ws) = count
    ∧ largestIndex (allocations count ws) < ws.length
    ∧ (∀ j < ws.length, (allocations count ws).getD j 0 ≤
        (allocations count ws).getD (largestIndex (allocations count ws)) 0)
    ∧ (∀ j < ws.length, j ≠ largestIndex (allocations count ws) →
        (correctedAllocations count ws).getD j 0 = (allocations count ws).getD j 0) := by
  have hlen : (allocations count ws).length = ws.length := by
    rw [allocations, List.length_map]
  have hne : allocations count ws ≠ [] := by
    intro hx
    exact hw (by simpa [hx] using hlen.symm)
  have hidx := largestIndex_lt (allocations count ws) hne
  refine ⟨?_, hlen ▸ hidx, fun j hj => getD_le_largestIndex _ j (hlen ▸ hj), ?_⟩
  · rw [correctedAllocations]
    by_cases hd : (count : ℤ) - sumInt (allocations count ws) ≠ 0
    · rw [if_pos hd, sumInt_eq_sum, sum_set_getD_add _ _ _ hidx, ← sumInt_eq_sum]
      ring
    · rw [if_neg hd]
      push_neg at hd
      omega
  · intro j hj hne'
    rw [correctedAllocations]
    by_cases hd : (count : ℤ) - sumInt (allocations count ws) ≠ 0
    · rw [if_pos hd, List.getD_eq_getElem?_getD, List.getD_eq_getElem?_getD,
        List.getElem?_set_ne (fun hx => hne' hx.symm), ← List.getD_eq_getElem?_getD]
    · rw [if_neg hd]

/--
Witness for claim C2: weights `[1, 3]` with count 100, as in the spec's
example; the hypotheses are discharged concretely.
-/
theorem synthesize_allocation_spec_witness :
    (([1, 3] : List ℚ) ≠ [] ∧ 0 < totalWeight [1, 3])
    ∧ (sumInt (correctedAllocations 100 [1, 3]) = 100
      ∧ largestIndex (allocations 100 [1, 3]) < ([1, 3] : List ℚ).length
      ∧ (∀ j < ([1, 3] : List ℚ).length, (allocations 100 [1, 3]).getD j 0 ≤
          (allocations 100 [1, 3]).getD (largestIndex (allocations 100 [1, 3])) 0)
      ∧ (∀ j < ([1, 3] : List ℚ).length, j ≠ largestIndex (allocations 100 [1, 3]) →
          (correctedAllocations 100 [1, 3]).getD j 0 =
            (allocations 100 [1, 3]).getD j 0)) :=
  ⟨⟨by decide, by norm_num [totalWeight]⟩,
    synthesize_allocation_spec [1, 3] 100 (by decide) (by norm_num [totalWeight])⟩

/--
Counterexample to claim C5 as stated: a strictly negative total synthesizer
weight does not raise a configuration error — the code only checks
`totalWeight === 0`.  With a single synthesizer of weight `-1` and one
persona, the validation passes and the plan is produced.
-/
theorem synthesize_negative_weight_not_rejected :
    totalWeight [(-1 : ℚ)] < 0 ∧ synthesizePlan [(-1 : ℚ)] 1 5 = .ok [5] := by
  have hW : totalWeight [(-1 : ℚ)] = -1 := by norm_num [totalWeight]
  have halloc : allocations 5 [(-1 : ℚ)] = [5] := by
    rw [allocations, List.map_cons, List.map_nil, hW]
    norm_num [jsRound]
  have hcorr : correctedAllocations 5 [(-1 : ℚ)] = [5] := by
    rw [correctedAllocations, halloc]
    norm_num [sumInt]
  refine ⟨by rw [hW]; norm_num, ?_⟩
  rw [synthesizePlan, validateSynthesize, hW]
  norm_num [Except.bind, hcorr]

/--
Claim C5 (amended): `synthesize` raises a configuration error before any
scenario generation or model call exactly when the synthesizer list is
empty, the persona list is empty, or the total weight is exactly zero; a
negative total weight is not rejected.
-/
theorem synthesizePlan_error_iff (ws : List ℚ) (np count : ℕ) :
    (∃ e, synthesizePlan ws np count = .error e) ↔
      (ws = [] ∨ np = 0 ∨ totalWeight ws = 0) := by
  rw [synthesizePlan, validateSynthesize]
  by_cases h1 : ws.length = 0
  · simp [h1, List.length_eq_zero.mp h1, Except.bind]
  · have hws : ¬ws = [] := fun hx => h1 (by simp [hx])
    by_cases h2 : np = 0
    · simp [h1, h2, hws, Except.bind]
    · by_cases h3 : totalWeight ws = 0
      · simp [h1, h2, h3, hws, Except.bind]
      · simp [h1, h2, h3, hws, Except.bind]

theorem singleHopLoop_length {T : Type} (sh : ℕ → List (GraphNode T) → List (GraphNode T))
    (rnd : ℕ → ℕ) (p : Persona) :
    ∀ (r : ℕ) (cns : List (GraphNode T)) (idx passes step : ℕ),
      (singleHopLoop sh rnd p r cns idx passes step).length = r := by
  intro r
  induction r with
  | zero => intro cns idx passes step; rfl
  | succ n ih =>
    intro cns idx passes step
    rw [singleHopLoop]
    by_cases h : (idx + 1) % cns.length = 0
    · rw [if_pos h, List.length_cons, ih]
    · rw [if_neg h, List.length_cons, ih]

theorem multiHopLoop_length {T : Type}
    (shG : ℕ → List (List (GraphNode T)) → List (List (GraphNode T)))
    (rnd : ℕ → ℕ) (p : Persona) :
    ∀ (r : ℕ) (grps : List (List (GraphNode T))) (idx passes step : ℕ),
      (multiHopLoop shG rnd p r grps idx passes step).length = r := by
  intro r
  induction r with
  | zero => intro grps idx passes step; rfl
  | succ n ih =>
    intro grps idx passes step
    rw [multiHopLoop]
    by_cases h : (idx + 1) % grps.length = 0
    · rw [if_pos h, List.length_cons, ih]
    · rw [if_neg h, List.length_cons, ih]

/--
Claim C4: for every graph with at least one chunk node, persona, count and
query type, `generateScenarios` returns exactly `count` scenarios, whatever
the relation of `count` to the graph size (the loops cycle through the
nodes/groups, reshuffling after each full pass, to fill the gap).  The
shuffling functions are the injected randomness and are permutations.
-/
theorem generateScenarios_length {T : Type}
    (shN : ℕ → List (GraphNode T) → List (GraphNode T))
    (shG : ℕ → List (List (GraphNode T)) → List (List (GraphNode T)))
    (rnd : ℕ → ℕ) (g : KnowledgeGraph T) (p : Persona) (count : ℕ) (qt : QueryType)
    (hch : g.getNodesByType .chunk ≠ [])
    (hshN : ∀ (k : ℕ) (l : List (GraphNode T)), (shN k l).Perm l) :
    (generateScenarios shN shG rnd g p count qt).length = count := by
  have hlen : ¬(shN 0 (g.getNodesByType .chunk)).length = 0 := by
    rw [(hshN 0 _).length_eq]
    exact fun hx => hch (List.length_eq_zero.mp hx)
  cases qt with
  | singleHop =>
    rw [generateScenarios, singleHopBuild]
    rw [if_neg hlen]
    exact singleHopLoop_length shN rnd p count _ 0 1 0
  | multiHop =>
    rw [generateScenarios, multiHopBuild]
    rw [if_neg hlen]
    exact multiHopLoop_length shG rnd p count _ 0 1 0

/--
Witness for claim C4: the two-chunk example graph, identity shuffles,
count 5, multi-hop.
-/
theorem generateScenarios_length_witness :
    (exGraph.getNodesByType .chunk ≠ []
      ∧ ∀ (k : ℕ) (l : List (GraphNode Unit)),
          ((fun _ l => l : ℕ → List (GraphNode Unit) → List (GraphNode Unit)) k l).Perm l)
    ∧ (generateScenarios (fun _ l => l) (fun _ l => l) (fun _ => 0) exGraph exPersona 5
        .multiHop).length = 5 :=
  ⟨⟨by decide, fun _ l => List.Perm.refl l⟩,
    generateScenarios_length (fun _ l => l) (fun _ l => l) (fun _ => 0) exGraph exPersona 5
      .multiHop (by decide) (fun _ l => List.Perm.refl l)⟩

/--
Claim C3 (code defect): on a graph with exactly one chunk node (and no
relationships), the multi-hop builder finds no qualifying connected groups
and the adjacent-pairing fallback also produces no group, so
`connectedGroups` stays empty; the loop then reads
`connectedGroups[groupIndex % 0]`, which is `undefined` in JavaScript, and
emits a scenario whose `context.nodes` is not a non-empty list — refuting
the claim that every produced scenario has a non-empty context.
-/
theorem multiHop_single_chunk_no_context :
    (generateScenarios (fun _ l => l) (fun _ l => l) (fun _ => 0) exChunkOnly exPersona 1
        .multiHop).map (fun s => s.context.nodes) = [none] := by
  have hchunks : exChunkOnly.getNodesByType .chunk = [exC1] := by decide
  have hscan : fcnScan exChunkOnly (1 / 2) (0 + 1) exC1.relationships (exC1.id :: []) =
      ([], exC1.id :: [], []) := by
    rw [show exC1.relationships = [] from rfl, fcnScan]
  have hloop : fcnLoop exChunkOnly 2 (1 / 2) [(exC1, 0)] (exC1.id :: []) [exC1] =
      ([exC1], exC1.id :: []) := by
    rw [fcnLoop, if_neg (by norm_num)]
    simp only [hscan, fcnLoop, List.append_nil, List.nil_append]
  have hgroups : findConnectedNodeGroups exChunkOnly 2 (1 / 2) [exC1] = [] := by
    rw [findConnectedNodeGroups, fcngAux, if_neg (by decide), findConnectedNodes]
    simp only [hloop]
    rw [if_neg (by norm_num), fcngAux]
  rw [generateScenarios, multiHopBuild]
  simp only [hchunks]
  rw [if_neg (by decide), hgroups]
  simp only [List.isEmpty_nil, if_pos rfl]
  rw [show pairAdjacent [exC1] = ([] : List (List (GraphNode Unit))) from rfl]
  rw [multiHopLoop, if_neg (by norm_num), multiHopLoop]
  rfl

theorem placeNode_nonempty (cos : List ℚ → List ℚ → ℚ) (t : ℚ)
    (node : GraphNode SummaryMeta) :
    ∀ (clusters : List (List (GraphNode SummaryMeta))),
      (∀ c ∈ clusters, c ≠ []) →
      ∀ c' ∈ (placeNode cos t node clusters).1, c' ≠ [] := by
  intro clusters
  induction clusters with
  | nil => simp [placeNode]
  | cons c cs ih =>
    intro h
    have hc : c ≠ [] := h c (List.mem_cons_self _ _)
    have hcs : ∀ x ∈ cs, x ≠ [] := fun x hx => h x (List.mem_cons_of_mem _ hx)
    obtain ⟨a, as, rfl⟩ := List.exists_cons_of_ne_nil hc
    rw [placeNode]
    simp only [List.head?_cons]
    by_cases hsim : t ≤ cos node.metadata.summaryEmbedding a.metadata.summaryEmbedding
    · rw [if_pos hsim]
      intro c' hc'
      rw [List.mem_cons] at hc'
      rcases hc' with rfl | hc'
      · simp
      · exact hcs c' hc'
    · rw [if_neg hsim]
      intro c' hc'
      rw [List.mem_cons] at hc'
      rcases hc' with rfl | hc'
      · simp
      · exact ih hcs c' hc'

theorem buildClusters_nonempty (cos : List ℚ → List ℚ → ℚ) (t : ℚ)
    (ns : List (GraphNode SummaryMeta)) :
    ∀ c ∈ buildClusters cos t ns, c ≠ [] := by
  rw [buildClusters]
  suffices h : ∀ (clusters : List (List (GraphNode SummaryMeta))),
      (∀ c ∈ clusters, c ≠ []) →
      ∀ c ∈ ns.foldl (fun clusters node =>
        if (placeNode cos t node clusters).2 then (placeNode cos t node clusters).1
        else (placeNode cos t node clusters).1 ++ [[node]]) clusters, c ≠ [] by
    exact h [] (by simp)
  induction ns with
  | nil => intro clusters h; simpa using h
  | cons n rest ih =>
    intro clusters h
    rw [List.foldl_cons]
    refine ih _ ?_
    intro c hc
    by_cases hb : (placeNode cos t n clusters).2 = true
    · rw [if_pos hb] at hc
      exact placeNode_nonempty cos t n clusters h c hc
    · rw [if_neg hb] at hc
      rw [List.mem_append] at hc
      rcases hc with hc | hc
      · exact placeNode_nonempty cos t n clusters h c hc
      · simp only [List.mem_singleton] at hc
        subst hc
        simp

theorem longestOf_mem (h : GraphNode SummaryMeta) (rest : List (GraphNode SummaryMeta)) :
    longestOf h rest ∈ h :: rest := by
  induction rest generalizing h with
  | nil => simp [longestOf]
  | cons c cs ih =>
    rw [longestOf, List.foldl_cons]
    have hx := ih (if h.metadata.summary.length < c.metadata.summary.length then c else h)
    rw [longestOf] at hx
    rcases List.mem_cons.mp hx with h1 | h1
    · rw [h1]
      by_cases hlt : h.metadata.summary.length < c.metadata.summary.length
      · rw [if_pos hlt]
        exact List.mem_cons_of_mem _ (List.mem_cons_self _ _)
      · rw [if_neg hlt]
        exact List.mem_cons_self _ _
    · exact List.mem_cons_of_mem _ (List.mem_cons_of_mem _ h1)

theorem longestOf_le (h : GraphNode SummaryMeta) (rest : List (GraphNode SummaryMeta)) :
    ∀ m ∈ h :: rest,
      m.metadata.summary.length ≤ (longestOf h rest).metadata.summary.length := by
  induction rest generalizing h with
  | nil =>
    intro m hm
    rw [List.mem_singleton] at hm
    subst hm
    simp [longestOf]
  | cons c cs ih =>
    intro m hm
    rw [longestOf, List.foldl_cons]
    have hrec := ih (if h.metadata.summary.length < c.metadata.summary.length then c else h)
    rw [longestOf] at hrec
    rcases List.mem_cons.mp hm with rfl | hm2
    · refine le_trans ?_ (hrec _ (List.mem_cons_self _ _))
      by_cases hlt : m.metadata.summary.length < c.metadata.summary.length
      · rw [if_pos hlt]
        exact le_of_lt hlt
      · rw [if_neg hlt]
    · rcases List.mem_cons.mp hm2 with rfl | hm3
      · refine le_trans ?_ (hrec _ (List.mem_cons_self _ _))
        by_cases hlt : h.metadata.summary.length < m.metadata.summary.length
        · rw [if_pos hlt]
        · rw [if_neg hlt]
          exact le_of_not_lt hlt
      · exact hrec m (List.mem_cons_of_mem _ hm3)

theorem filterMap_repOf_forall2 :
    ∀ (clusters : List (List (GraphNode SummaryMeta))),
      (∀ c ∈ clusters, c ≠ []) →
      List.Forall₂ (fun c e => e.1 ∈ c ∧ e.2 = e.1.metadata.summary
          ∧ ∀ m ∈ c, m.metadata.summary.length ≤ e.1.metadata.summary.length)
        clusters (clusters.filterMap repOf) := by
  intro clusters
  induction clusters with
  | nil => intro; simp [List.Forall₂.nil]
  | cons c cs ih =>
    intro h
    have hc : c ≠ [] := h c (List.mem_cons_self _ _)
    have hcs : ∀ x ∈ cs, x ≠ [] := fun x hx => h x (List.mem_cons_of_mem _ hx)
    obtain ⟨a, as, rfl⟩ := List.exists_cons_of_ne_nil hc
    rw [List.filterMap_cons]
    rw [show repOf (a :: as) = some (longestOf a as, (longestOf a as).metadata.summary)
      from rfl]
    exact List.Forall₂.cons ⟨longestOf_mem a as, rfl, longestOf_le a as⟩ (ih hcs)

/--
Claim C10: the persona clustering joins each node, in presentation order,
to the first cluster whose first member is at least `threshold`-similar
(default 0.75), else starts a singleton; every cluster is non-empty; each
cluster's selected representative is a member with the longest summary
(paired with that summary); and in the three-node configuration where B is
similar to A and C is dissimilar to both, the clustering yields exactly the
two clusters `[A, B]` and `[C]`.
-/
theorem selectRepresentativeSummaries_spec (cos : List ℚ → List ℚ → ℚ) (t : ℚ)
    (ns : List (GraphNode SummaryMeta)) (hns : ns ≠ []) :
    (∀ c ∈ buildClusters cos t ns, c ≠ [])
    ∧ List.Forall₂ (fun c e => e.1 ∈ c ∧ e.2 = e.1.metadata.summary
        ∧ ∀ m ∈ c, m.metadata.summary.length ≤ e.1.metadata.summary.length)
      (buildClusters cos t ns) (selectRepresentativeSummaries cos ns t)
    ∧ ∀ (A B C : GraphNode SummaryMeta),
        t ≤ cos B.metadata.summaryEmbedding A.metadata.summaryEmbedding →
        ¬ t ≤ cos C.metadata.summaryEmbedding A.metadata.summaryEmbedding →
        ¬ t ≤ cos C.metadata.summaryEmbedding B.metadata.summaryEmbedding →
        buildClusters cos t [A, B, C] = [[A, B], [C]] := by
  refine ⟨buildClusters_nonempty cos t ns, ?_, ?_⟩
  · rw [selectRepresentativeSummaries,
      if_neg (fun hx => hns (List.length_eq_zero.mp hx))]
    exact filterMap_repOf_forall2 _ (buildClusters_nonempty cos t ns)
  · intro A B C hBA hCA hCB
    have hpA : placeNode cos t A ([] : List (List (GraphNode SummaryMeta))) =
        ([], false) := rfl
    have hpB : placeNode cos t B [[A]] = ([[A, B]], true) := by
      rw [placeNode]
      simp only [List.head?_cons, if_pos hBA]
      rfl
    have hpC : placeNode cos t C [[A, B]] = ([[A, B]], false) := by
      rw [placeNode]
      simp only [List.head?_cons, if_neg hCA]
      rfl
    simp [buildClusters, hpA, hpB, hpC]

/--
Witness for claim C10: three concrete summary nodes with one-dimensional
embeddings `[1]`, `[1]`, `[0]` under a concrete similarity function, at the
default threshold 0.75.
-/
theorem selectRepresentativeSummaries_spec_witness :
    ([exSumA, exSumB, exSumC] : List (GraphNode SummaryMeta)) ≠ []
    ∧ ((∀ c ∈ buildClusters cosW (3 / 4) [exSumA, exSumB, exSumC], c ≠ [])
      ∧ List.Forall₂ (fun c e => e.1 ∈ c ∧ e.2 = e.1.metadata.summary
          ∧ ∀ m ∈ c, m.metadata.summary.length ≤ e.1.metadata.summary.length)
        (buildClusters cosW (3 / 4) [exSumA, exSumB, exSumC])
        (selectRepresentativeSummaries cosW [exSumA, exSumB, exSumC] (3 / 4))
      ∧ ∀ (A B C : GraphNode SummaryMeta),
          (3 / 4 : ℚ) ≤ cosW B.metadata.summaryEmbedding A.metadata.summaryEmbedding →
          ¬(3 / 4 : ℚ) ≤ cosW C.metadata.summaryEmbedding A.metadata.summaryEmbedding →
          ¬(3 / 4 : ℚ) ≤ cosW C.metadata.summaryEmbedding B.metadata.summaryEmbedding →
          buildClusters cosW (3 / 4) [A, B, C] = [[A, B], [C]]) :=
  ⟨by decide, selectRepresentativeSummaries_spec cosW (3 / 4) [exSumA, exSumB, exSumC]
    (by decide)⟩

theorem getElem?_of_mem {α : Type} {l : List α} {a : α} (h : a ∈ l) :
    ∃ i : ℕ, l[i]? = some a := by
  obtain ⟨i, hi⟩ := List.get_of_mem h
  exact ⟨i, by rw [List.getElem?_eq_getElem i.isLt]; simp [← hi, List.get_eq_getElem]⟩

theorem map_nodeCore_nodeUpdate {T : Type} (l : List (GraphNode T)) (i : String)
    (f : GraphNode T → GraphNode T) (hf : ∀ n, nodeCore (f n) = nodeCore n) :
    (KnowledgeGraph.nodeUpdate l i f).map nodeCore = l.map nodeCore := by
  induction l with
  | nil => rfl
  | cons m rest ih =>
    by_cases hm : m.id = i
    · rw [show KnowledgeGraph.nodeUpdate (m :: rest) i f = f m :: rest from by
        simp [KnowledgeGraph.nodeUpdate, hm]]
      rw [List.map_cons, List.map_cons, hf]
    · rw [show KnowledgeGraph.nodeUpdate (m :: rest) i f = m :: KnowledgeGraph.nodeUpdate rest i f
        from by simp [KnowledgeGraph.nodeUpdate, hm]]
      rw [List.map_cons, List.map_cons, ih]

theorem relPass_cons (cos : List ℚ → List ℚ → ℚ) (t : ℚ) (a b : GraphNode EmbMeta)
    (bs : List (GraphNode EmbMeta)) (m : List (String × Relationship)) :
    relPass cos t a (b :: bs) m =
      relPass cos t a bs
        (if t ≤ cos (embOf a.metadata) (embOf b.metadata) then
          mapSet m b.id (.similarity (cos (embOf a.metadata) (embOf b.metadata)))
        else m) := by
  rw [relPass, relPass, List.foldl_cons]

theorem relPass_notmem (cos : List ℚ → List ℚ → ℚ) (t : ℚ) (a : GraphNode EmbMeta)
    (tid : String) :
    ∀ (bs : List (GraphNode EmbMeta)) (m : List (String × Relationship)),
      (∀ b ∈ bs, b.id = tid → ¬ t ≤ cos (embOf a.metadata) (embOf b.metadata)) →
      mapGet (relPass cos t a bs m) tid = mapGet m tid := by
  intro bs
  induction bs with
  | nil => intro m _; rfl
  | cons b rest ih =>
    intro m hall
    rw [relPass_cons]
    by_cases hsim : t ≤ cos (embOf a.metadata) (embOf b.metadata)
    · rw [if_pos hsim, ih _ (fun x hx => hall x (List.mem_cons_of_mem _ hx))]
      have hbt : b.id ≠ tid := fun hx => hall b (List.mem_cons_self _ _) hx hsim
      exact mapGet_mapSet_ne _ _ _ _ (fun hx => hbt hx.symm)
    · rw [if_neg hsim]
      exact ih _ (fun x hx => hall x (List.mem_cons_of_mem _ hx))

theorem relPass_mem (cos : List ℚ → List ℚ → ℚ) (t : ℚ) (a b : GraphNode EmbMeta) :
    ∀ (bs : List (GraphNode EmbMeta)) (m : List (String × Relationship)),
      (bs.map GraphNode.id).Nodup → b ∈ bs →
      t ≤ cos (embOf a.metadata) (embOf b.metadata) →
      mapGet (relPass cos t a bs m) b.id =
        some (.similarity (cos (embOf a.metadata) (embOf b.metadata))) := by
  intro bs
  induction bs with
  | nil => intro m _ hb; simp at hb
  | cons c rest ih =>
    intro m hnd hb hsim
    simp only [List.map_cons, List.nodup_cons] at hnd
    rw [relPass_cons]
    rcases List.mem_cons.mp hb with rfl | hb2
    · rw [if_pos hsim]
      rw [relPass_notmem cos t a b.id rest _ (fun x hx hxid => by
        exact absurd (List.mem_map.mpr ⟨x, hx, hxid⟩) hnd.1)]
      exact mapGet_mapSet_self _ _ _
    · by_cases hcs : t ≤ cos (embOf a.metadata) (embOf c.metadata)
      · rw [if_pos hcs]
        exact ih _ hnd.2 hb2 hsim
      · rw [if_neg hcs]
        exact ih _ hnd.2 hb2 hsim

theorem getNode_mk_nodeUpdate (g : KnowledgeGraph EmbMeta) (i j : String)
    (f : GraphNode EmbMeta → GraphNode EmbMeta) (hf : ∀ n, (f n).id = n.id) :
    (KnowledgeGraph.mk (KnowledgeGraph.nodeUpdate g.nodes i f)).getNode j =
      if j = i then (g.getNode i).map f else g.getNode j := by
  rw [show (KnowledgeGraph.mk (KnowledgeGraph.nodeUpdate g.nodes i f)).getNode j =
      (KnowledgeGraph.nodeUpdate g.nodes i f).find? (fun n => n.id = j) from rfl,
    KnowledgeGraph.getNode_nodeUpdate g.nodes i j f hf]
  rfl

theorem relInner_spec (cos : List ℚ → List ℚ → ℚ) (t : ℚ) (a : GraphNode EmbMeta) :
    ∀ (bs : List (GraphNode EmbMeta)) (g : KnowledgeGraph EmbMeta)
      (na : GraphNode EmbMeta),
      g.getNode a.id = some na →
      (∀ b ∈ bs, (g.getNode b.id).isSome) →
      ∃ g₁, relInner cos t a bs g = .ok g₁
        ∧ g₁.nodes.map nodeCore = g.nodes.map nodeCore
        ∧ ∀ j, g₁.getNode j =
            if j = a.id then
              some { na with relationships := relPass cos t a bs na.relationships }
            else g.getNode j := by
  intro bs
  induction bs with
  | nil =>
    intro g na hna hp
    refine ⟨g, rfl, rfl, fun j => ?_⟩
    by_cases hj : j = a.id
    · rw [if_pos hj, hj, hna]
      rfl
    · rw [if_neg hj]
  | cons b rest ih =>
    intro g na hna hp
    rw [relInner]
    by_cases hsim : t ≤ cos (embOf a.metadata) (embOf b.metadata)
    · rw [if_pos hsim]
      have hbp : (g.getNode b.id).isSome := hp b (List.mem_cons_self _ _)
      obtain ⟨nb, hnb⟩ := Option.isSome_iff_exists.mp hbp
      simp only [KnowledgeGraph.addRelationship, hna, hnb]
      set rel : Relationship :=
        Relationship.similarity (cos (embOf a.metadata) (embOf b.metadata)) with hrel
      set fstep : GraphNode EmbMeta → GraphNode EmbMeta := fun n =>
        { n with relationships := mapSet n.relationships b.id rel } with hfstep
      set gstep : KnowledgeGraph EmbMeta :=
        ⟨KnowledgeGraph.nodeUpdate g.nodes a.id fstep⟩ with hgstep
      have hstep_get : ∀ j, gstep.getNode j =
          if j = a.id then (g.getNode a.id).map fstep else g.getNode j :=
        fun j => getNode_mk_nodeUpdate g a.id j fstep (fun n => rfl)
      have hstep_a : gstep.getNode a.id = some (fstep na) := by
        rw [hstep_get, if_pos rfl, hna, Option.map_some']
      have hstep_p : ∀ x ∈ rest, (gstep.getNode x.id).isSome := by
        intro x hx
        rw [hstep_get]
        by_cases hxa : x.id = a.id
        · rw [if_pos hxa, hna, Option.map_some']
          rfl
        · rw [if_neg hxa]
          exact hp x (List.mem_cons_of_mem _ hx)
      obtain ⟨g₁, hok, hcore, hchar⟩ := ih gstep (fstep na) hstep_a hstep_p
      refine ⟨g₁, hok, ?_, ?_⟩
      · rw [hcore, hgstep]
        exact map_nodeCore_nodeUpdate g.nodes a.id fstep (fun n => rfl)
      · intro j
        rw [hchar j]
        by_cases hj : j = a.id
        · rw [if_pos hj, if_pos hj, relPass_cons, if_pos hsim]
        · rw [if_neg hj, if_neg hj, hstep_get j, if_neg hj]
    · rw [if_neg hsim]
      obtain ⟨g₁, hok, hcore, hchar⟩ :=
        ih g na hna (fun x hx => hp x (List.mem_cons_of_mem _ hx))
      refine ⟨g₁, hok, hcore, fun j => ?_⟩
      rw [hchar j]
      by_cases hj : j = a.id
      · rw [if_pos hj, if_pos hj, relPass_cons, if_neg hsim]
      · rw [if_neg hj, if_neg hj]

theorem relOuter_spec (cos : List ℚ → List ℚ → ℚ) (t : ℚ) :
    ∀ (ol : List (GraphNode EmbMeta)) (g : KnowledgeGraph EmbMeta),
      (ol.map GraphNode.id).Nodup →
      (∀ x ∈ ol, (g.getNode x.id).isSome) →
      ∃ g', relOuter cos t ol g = .ok g'
        ∧ g'.nodes.map nodeCore = g.nodes.map nodeCore
        ∧ (∀ j, j ∉ ol.map GraphNode.id → g'.getNode j = g.getNode j)
        ∧ ∀ (k : ℕ) (x : GraphNode EmbMeta), ol[k]? = some x →
            g'.getNode x.id = (g.getNode x.id).map fun n =>
              { n with relationships :=
                  relPass cos t x (ol.drop (k + 1)) n.relationships } := by
  intro ol
  induction ol with
  | nil =>
    intro g _ _
    exact ⟨g, rfl, rfl, fun j _ => rfl, fun k x hx => by simp at hx⟩
  | cons a rest ih =>
    intro g hnd hp
    simp only [List.map_cons, List.nodup_cons] at hnd
    have hap : (g.getNode a.id).isSome := hp a (List.mem_cons_self _ _)
    obtain ⟨na, hna⟩ := Option.isSome_iff_exists.mp hap
    obtain ⟨g₁, hok1, hcore1, hchar1⟩ := relInner_spec cos t a rest g na hna
      (fun x hx => hp x (List.mem_cons_of_mem _ hx))
    rw [relOuter]
    simp only [hok1]
    have hp1 : ∀ x ∈ rest, (g₁.getNode x.id).isSome := by
      intro x hx
      rw [hchar1]
      by_cases hxa : x.id = a.id
      · rw [if_pos hxa]
        rfl
      · rw [if_neg hxa]
        exact hp x (List.mem_cons_of_mem _ hx)
    obtain ⟨g', hok2, hcore2, hnot2, hidx2⟩ := ih g₁ hnd.2 hp1
    refine ⟨g', hok2, hcore2.trans hcore1, ?_, ?_⟩
    · intro j hj
      rw [List.map_cons, List.mem_cons] at hj
      push_neg at hj
      rw [hnot2 j hj.2, hchar1 j, if_neg hj.1]
    · intro k x hx
      cases k with
      | zero =>
        rw [List.getElem?_cons_zero] at hx
        injection hx with hx
        subst hx
        have hnot : a.id ∉ rest.map GraphNode.id := hnd.1
        rw [hnot2 a.id hnot, hchar1 a.id, if_pos rfl, hna, Option.map_some']
        rfl
      | succ k =>
        rw [List.getElem?_cons_succ] at hx
        have hxmem : x ∈ rest := List.getElem?_mem hx
        have hxa : x.id ≠ a.id := by
          intro hcontra
          exact hnd.1 (hcontra ▸ List.mem_map.mpr ⟨x, hxmem, rfl⟩)
        rw [hidx2 k x hx, hchar1 x.id, if_neg hxa]
        rfl

/--
Claim C9: the `relationship(threshold)` transform succeeds and adds a
similarity edge exactly for the ordered pairs of embedding-carrying chunk
nodes whose similarity reaches the threshold: the edge goes from the
lower-indexed node to the higher-indexed node (in filter enumeration
order) and carries the computed similarity as its score; every node keeps
all its non-relationship fields (pairs without embeddings are filtered out
entirely), and every relationship slot not belonging to a qualifying pair
is unchanged.  The graph satisfies the `Map` invariant (unique node ids),
and `cos` is the similarity function of the external ai SDK.
-/
theorem relationship_spec (cos : List ℚ → List ℚ → ℚ) (t : ℚ)
    (g : KnowledgeGraph EmbMeta) (hids : (g.nodes.map GraphNode.id).Nodup) :
    ∃ g', relationshipApply cos t g = .ok g'
      ∧ g'.nodes.map nodeCore = g.nodes.map nodeCore
      ∧ (∀ (i j : ℕ) (a b : GraphNode EmbMeta), i < j →
          (chunkEmbNodes g)[i]? = some a → (chunkEmbNodes g)[j]? = some b →
          t ≤ cos (embOf a.metadata) (embOf b.metadata) →
          ∃ n', g'.getNode a.id = some n'
            ∧ mapGet n'.relationships b.id =
                some (.similarity (cos (embOf a.metadata) (embOf b.metadata))))
      ∧ ∀ sid tid : String,
          (¬ ∃ (i j : ℕ) (a b : GraphNode EmbMeta), i < j
            ∧ (chunkEmbNodes g)[i]? = some a ∧ (chunkEmbNodes g)[j]? = some b
            ∧ a.id = sid ∧ b.id = tid
            ∧ t ≤ cos (embOf a.metadata) (embOf b.metadata)) →
          (g'.getNode sid).map (fun n => mapGet n.relationships tid) =
            (g.getNode sid).map fun n => mapGet n.relationships tid := by
  have hsub : (chunkEmbNodes g).Sublist g.nodes := List.filter_sublist _
  have hndf : ((chunkEmbNodes g).map GraphNode.id).Nodup :=
    (hsub.map GraphNode.id).nodup hids
  by_cases hemp : (chunkEmbNodes g).length = 0
  · rw [List.length_eq_zero] at hemp
    refine ⟨g, by rw [relationshipApply, if_pos (by rw [hemp]; rfl)], rfl, ?_,
      fun sid tid _ => rfl⟩
    intro i j a b _ ha _ _
    rw [hemp] at ha
    simp at ha
  · have hpres : ∀ x ∈ chunkEmbNodes g, (g.getNode x.id).isSome := by
      intro x hx
      rw [KnowledgeGraph.getNode, List.find?_isSome]
      exact ⟨x, hsub.mem hx, by simp⟩
    obtain ⟨g', hok, hcore, hnot, hidx⟩ :=
      relOuter_spec cos t (chunkEmbNodes g) g hndf hpres
    refine ⟨g', by rw [relationshipApply, if_neg hemp]; exact hok, hcore, ?_, ?_⟩
    · intro i j a b hij ha hb hsim
      have hga := hidx i a ha
      have hnaS : (g.getNode a.id).isSome := hpres a (List.getElem?_mem ha)
      obtain ⟨na, hna⟩ := Option.isSome_iff_exists.mp hnaS
      rw [hna, Option.map_some'] at hga
      refine ⟨_, hga, ?_⟩
      have hbdrop : b ∈ (chunkEmbNodes g).drop (i + 1) := by
        have hidxb : ((chunkEmbNodes g).drop (i + 1))[j - (i + 1)]? = some b := by
          rw [List.getElem?_drop, show i + 1 + (j - (i + 1)) = j from by omega]
          exact hb
        exact List.getElem?_mem hidxb
      exact relPass_mem cos t a b ((chunkEmbNodes g).drop (i + 1)) na.relationships
        (((List.drop_sublist _ _).map GraphNode.id).nodup hndf) hbdrop hsim
    · intro sid tid hno
      by_cases hmem : sid ∈ (chunkEmbNodes g).map GraphNode.id
      · obtain ⟨x, hxmem, hxid⟩ := List.mem_map.mp hmem
        obtain ⟨k, hk⟩ := getElem?_of_mem hxmem
        have hgx := hidx k x hk
        rw [hxid] at hgx
        rw [hgx, Option.map_map]
        cases hgn : g.getNode sid with
        | none => rfl
        | some n =>
          rw [Option.map_some', Option.map_some', Function.comp_apply]
          congr 1
          apply relPass_notmem
          intro b hb hbid hsim
          obtain ⟨m, hm⟩ := getElem?_of_mem hb
          rw [List.getElem?_drop] at hm
          exact hno ⟨k, k + 1 + m, x, b, by omega, hk, hm, hxid, hbid, hsim⟩
      · rw [hnot sid hmem]

/--
Witness for claim C9: a two-chunk graph whose nodes carry the embedding
`[1]`, under a concrete similarity function and threshold 0.7.
-/
theorem relationship_spec_witness :
    ((exEmbGraph.nodes.map GraphNode.id).Nodup)
    ∧ ∃ g', relationshipApply cosW (7 / 10) exEmbGraph = .ok g'
      ∧ g'.nodes.map nodeCore = exEmbGraph.nodes.map nodeCore
      ∧ (∀ (i j : ℕ) (a b : GraphNode EmbMeta), i < j →
          (chunkEmbNodes exEmbGraph)[i]? = some a →
          (chunkEmbNodes exEmbGraph)[j]? = some b →
          (7 / 10 : ℚ) ≤ cosW (embOf a.metadata) (embOf b.metadata) →
          ∃ n', g'.getNode a.id = some n'
            ∧ mapGet n'.relationships b.id =
                some (.similarity (cosW (embOf a.metadata) (embOf b.metadata))))
      ∧ ∀ sid tid : String,
          (¬ ∃ (i j : ℕ) (a b : GraphNode EmbMeta), i < j
            ∧ (chunkEmbNodes exEmbGraph)[i]? = some a
            ∧ (chunkEmbNodes exEmbGraph)[j]? = some b
            ∧ a.id = sid ∧ b.id = tid
            ∧ (7 / 10 : ℚ) ≤ cosW (embOf a.metadata) (embOf b.metadata)) →
          (g'.getNode sid).map (fun n => mapGet n.relationships tid) =
            (exEmbGraph.getNode sid).map fun n => mapGet n.relationships tid :=
  ⟨by decide, relationship_spec cosW (7 / 10) exEmbGraph (by decide)⟩

theorem getNode_id {T : Type} {g : KnowledgeGraph T} {i : String} {n : GraphNode T}
    (h : g.getNode i = some n) : n.id = i := by
  have := List.find?_some h
  simpa using this

theorem neighborsOf_node {T : Type} (g : KnowledgeGraph T) (c : String) :
    ∀ nb ∈ g.neighborsOf c, g.getNode nb.id = some nb := by
  intro nb h
  rw [KnowledgeGraph.neighborsOf] at h
  cases hg : g.getNode c with
  | none =>
    rw [hg] at h
    simp at h
  | some n =>
    rw [hg] at h
    obtain ⟨p, _, hp⟩ := List.mem_filterMap.mp h
    rw [getNode_id hp]
    exact hp

theorem ReachesIn.snoc {T : Type} {g : KnowledgeGraph T} {n : ℕ} {a b c : String}
    (h : ReachesIn g n a b) (hedge : hasEdgeB g b c = true) :
    ReachesIn g (n + 1) a c := by
  induction h with
  | refl n a => exact ReachesIn.step hedge (ReachesIn.refl n c)
  | step hedge' _ ih => exact ReachesIn.step hedge' (ih hedge)

theorem hasEdgeB_of_neighbor {T : Type} {g : KnowledgeGraph T} {c : String}
    {nb : GraphNode T} (h : nb ∈ g.neighborsOf c) : hasEdgeB g c nb.id = true := by
  rw [hasEdgeB, List.any_eq_true]
  exact ⟨nb, h, by simp⟩

theorem enqueueNeighbors_spec {T : Type} (d : ℕ) :
    ∀ (ns : List (GraphNode T)) (vis : List String),
      ∃ fresh : List String,
        (enqueueNeighbors d ns vis).1 = fresh.reverse ++ vis
        ∧ (enqueueNeighbors d ns vis).2 = fresh.map (fun x => (x, d))
        ∧ fresh.Nodup
        ∧ (∀ x ∈ fresh, x ∉ vis ∧ ∃ nb ∈ ns, nb.id = x)
        ∧ (∀ nb ∈ ns, nb.id ∈ vis ∨ nb.id ∈ fresh) := by
  intro ns
  induction ns with
  | nil =>
    intro vis
    exact ⟨[], rfl, rfl, List.nodup_nil, by simp, by simp⟩
  | cons nb rest ih =>
    intro vis
    by_cases hmem : nb.id ∈ vis
    · obtain ⟨fresh, h1, h2, h3, h4, h5⟩ := ih vis
      have heq : enqueueNeighbors d (nb :: rest) vis = enqueueNeighbors d rest vis := by
        simp [enqueueNeighbors, hmem]
      refine ⟨fresh, by rw [heq, h1], by rw [heq, h2], h3, ?_, ?_⟩
      · intro x hx
        obtain ⟨hnv, nb', hnb', hid⟩ := h4 x hx
        exact ⟨hnv, nb', List.mem_cons_of_mem _ hnb', hid⟩
      · intro y hy
        rcases List.mem_cons.mp hy with rfl | hy2
        · exact Or.inl hmem
        · exact h5 y hy2
    · obtain ⟨fresh, h1, h2, h3, h4, h5⟩ := ih (nb.id :: vis)
      have heq : enqueueNeighbors d (nb :: rest) vis =
          ((enqueueNeighbors d rest (nb.id :: vis)).1,
            (nb.id, d) :: (enqueueNeighbors d rest (nb.id :: vis)).2) := by
        simp [enqueueNeighbors, hmem]
      refine ⟨nb.id :: fresh, ?_, ?_, ?_, ?_, ?_⟩
      · rw [heq]
        rw [show ((enqueueNeighbors d rest (nb.id :: vis)).1,
            (nb.id, d) :: (enqueueNeighbors d rest (nb.id :: vis)).2).1 =
            (enqueueNeighbors d rest (nb.id :: vis)).1 from rfl, h1,
          List.reverse_cons, List.append_assoc]
        rfl
      · rw [heq]
        rw [show ((enqueueNeighbors d rest (nb.id :: vis)).1,
            (nb.id, d) :: (enqueueNeighbors d rest (nb.id :: vis)).2).2 =
            (nb.id, d) :: (enqueueNeighbors d rest (nb.id :: vis)).2 from rfl, h2]
        rfl
      · rw [List.nodup_cons]
        refine ⟨fun hx => ?_, h3⟩
        exact (h4 nb.id hx).1 (List.mem_cons_self _ _)
      · intro x hx
        rcases List.mem_cons.mp hx with rfl | hx2
        · exact ⟨hmem, nb, List.mem_cons_self _ _, rfl⟩
        · obtain ⟨hnv, nb', hnb', hid⟩ := h4 x hx2
          exact ⟨fun hv => hnv (List.mem_cons_of_mem _ hv), nb',
            List.mem_cons_of_mem _ hnb', hid⟩
      · intro y hy
        rcases List.mem_cons.mp hy with rfl | hy2
        · exact Or.inr (List.mem_cons_self _ _)
        · rcases h5 y hy2 with hv | hf
          · rcases List.mem_cons.mp hv with hid | hv2
            · exact Or.inr (hid ▸ List.mem_cons_self _ _)
            · exact Or.inl hv2
          · exact Or.inr (List.mem_cons_of_mem _ hf)

theorem travOut_base {T : Type} {g : KnowledgeGraph T} {maxDepth : ℕ} {i : String}
    {acc : List (GraphNode T × ℕ)} {vis : List String}
    (hinv : TravInv g maxDepth i acc vis []) : TravOut g maxDepth i acc := by
  refine ⟨by simpa using hinv.nodup, ?_, ?_⟩
  · intro p hp
    exact ⟨hinv.acc_node p hp, hinv.acc_reach p hp⟩
  · intro p hp hlt b hedge
    obtain ⟨e, he, hcase⟩ := hinv.closed p hp hlt b hedge
    rcases hcase with ⟨nb, hnb, hmem⟩ | habs
    · exact ⟨e, he, nb, hnb, hmem⟩
    · simp at habs

theorem filter_count_cons (x : String) (vis : List String) (hnx : x ∉ vis) :
    ∀ l : List String, x ∈ l →
      (l.filter fun i => decide (i ∉ x :: vis)).length + 1 ≤
        (l.filter fun i => decide (i ∉ vis)).length := by
  intro l
  induction l with
  | nil => simp
  | cons a t ih =>
    intro hx
    by_cases hax : a = x
    · subst hax
      rw [List.filter_cons, if_neg (by simp), List.filter_cons,
        if_pos (by simpa using hnx)]
      have mono := (List.monotone_filter_right t
        (p := fun i => decide (i ∉ a :: vis)) (q := fun i => decide (i ∉ vis))
        (fun b hb => by
          simp only [decide_eq_true_eq, List.mem_cons] at *
          exact fun h => hb (Or.inr h))).length_le
      simpa using Nat.add_le_add_right mono 1
    · have hxt : x ∈ t := by
        rcases List.mem_cons.mp hx with h | h
        · exact absurd h.symm hax
        · exact h
      by_cases hav : a ∈ vis
      · rw [List.filter_cons, if_neg (by simp [hav]), List.filter_cons,
          if_neg (by simp [hav])]
        exact ih hxt
      · rw [List.filter_cons, if_pos (by simp [hav, hax]), List.filter_cons,
          if_pos (by simpa using hav)]
        simpa using Nat.add_le_add_right (ih hxt) 1

theorem unvisited_extend {T : Type} (g : KnowledgeGraph T) :
    ∀ (fresh vis : List String), fresh.Nodup → (∀ x ∈ fresh, x ∉ vis) →
      (∀ x ∈ fresh, x ∈ g.nodes.map GraphNode.id) →
      unvisitedCount g (fresh.reverse ++ vis) + fresh.length ≤ unvisitedCount g vis := by
  intro fresh
  induction fresh with
  | nil => intro vis _ _ _; simp
  | cons x fresh ih =>
    intro vis hnd hdisj hids
    rw [List.nodup_cons] at hnd
    have hrw : (x :: fresh).reverse ++ vis = fresh.reverse ++ (x :: vis) := by
      rw [List.reverse_cons, List.append_assoc]
      rfl
    rw [hrw]
    have h1 := ih (x :: vis) hnd.2
      (fun y hy => by
        rw [List.mem_cons]
        push_neg
        exact ⟨fun he => hnd.1 (he ▸ hy), hdisj y (List.mem_cons_of_mem _ hy)⟩)
      (fun y hy => hids y (List.mem_cons_of_mem _ hy))
    have h2 := filter_count_cons x vis (hdisj x (List.mem_cons_self _ _))
      (g.nodes.map GraphNode.id) (hids x (List.mem_cons_self _ _))
    simp only [unvisitedCount, List.length_cons] at *
    omega

theorem map_fst_pair (d : ℕ) (l : List String) :
    (l.map fun x => (x, d)).map Prod.fst = l := by
  induction l with
  | nil => rfl
  | cons a t ih => simp [ih]

theorem travG {T : Type} (g : KnowledgeGraph T) (maxDepth : ℕ) (i : String) :
    ∀ (N : ℕ) (q : List (String × ℕ)) (vis : List String)
      (acc : List (GraphNode T × ℕ)),
      unvisitedCount g vis + q.length ≤ N →
      TravInv g maxDepth i acc vis q →
      TravOut g maxDepth i (acc ++ traverseAuxD g maxDepth q vis) := by
  intro N
  induction N with
  | zero =>
    intro q vis acc hN hinv
    have hq : q = [] := List.length_eq_zero.mp (by omega)
    subst hq
    rw [traverseAuxD, List.append_nil]
    exact travOut_base hinv
  | succ N ih =>
    intro q vis acc hN hinv
    cases q with
    | nil =>
      rw [traverseAuxD, List.append_nil]
      exact travOut_base hinv
    | cons hd rest =>
      obtain ⟨c, d⟩ := hd
      obtain ⟨node, hnode⟩ :=
        Option.isSome_iff_exists.mp (hinv.q_node (c, d) (List.mem_cons_self _ _))
      have hnid : node.id = c := getNode_id hnode
      have hqrh := hinv.q_reach (c, d) (List.mem_cons_self _ _)
      have hsp := List.pairwise_cons.mp hinv.q_sorted
      rw [traverseAuxD]
      simp only [hnode]
      by_cases hlt : d < maxDepth
      · rw [if_pos hlt]
        obtain ⟨fresh, h1, h2, h3, h4, h5⟩ :=
          enqueueNeighbors_spec (d + 1) (g.neighborsOf c) vis
        have hvisE : ∀ x, x ∈ (enqueueNeighbors (d + 1) (g.neighborsOf c) vis).1 ↔
            x ∈ fresh ∨ x ∈ vis := by
          intro x
          rw [h1]
          simp [List.mem_append, List.mem_reverse]
        have hfreshnode : ∀ x ∈ fresh, ∃ nbx, g.getNode x = some nbx := by
          intro x hx
          obtain ⟨nb, hnb, hid⟩ := (h4 x hx).2
          exact ⟨nb, hid ▸ neighborsOf_node g c nb hnb⟩
        have hedge_fresh : ∀ x ∈ fresh, hasEdgeB g c x = true := by
          intro x hx
          obtain ⟨nb, hnb, hid⟩ := (h4 x hx).2
          exact hid ▸ hasEdgeB_of_neighbor hnb
        have hE2 : ∀ p, p ∈ (enqueueNeighbors (d + 1) (g.neighborsOf c) vis).2 ↔
            ∃ x ∈ fresh, p = (x, d + 1) := by
          intro p
          rw [h2]
          constructor
          · intro hp
            obtain ⟨x, hx, hpx⟩ := List.mem_map.mp hp
            exact ⟨x, hx, hpx.symm⟩
          · rintro ⟨x, hx, rfl⟩
            exact List.mem_map.mpr ⟨x, hx, rfl⟩
        rw [List.append_cons]
        refine ih (rest ++ (enqueueNeighbors (d + 1) (g.neighborsOf c) vis).2)
          (enqueueNeighbors (d + 1) (g.neighborsOf c) vis).1
          (acc ++ [(node, d)]) ?_ ?_
        · have hext := unvisited_extend g fresh vis h3 (fun x hx => (h4 x hx).1)
            (fun x hx => by
              obtain ⟨nbx, hnbx⟩ := hfreshnode x hx
              exact List.mem_map.mpr ⟨nbx, List.mem_of_find?_eq_some hnbx,
                getNode_id hnbx⟩)
          rw [← h1] at hext
          have hlen2 : (enqueueNeighbors (d + 1) (g.neighborsOf c) vis).2.length =
              fresh.length := by rw [h2, List.length_map]
          simp only [List.length_append, List.length_cons] at *
          omega
        · constructor
          -- vis_eq
          · intro x
            rw [hvisE x]
            constructor
            · intro hx
              rcases hx with hx | hx
              · refine Or.inr ⟨(x, d + 1), ?_, rfl⟩
                exact List.mem_append_right _ ((hE2 _).mpr ⟨x, hx, rfl⟩)
              · rcases (hinv.vis_eq x).mp hx with ⟨p, hp, hid⟩ | ⟨p, hp, hfst⟩
                · exact Or.inl ⟨p, List.mem_append_left _ hp, hid⟩
                · rcases List.mem_cons.mp hp with rfl | hp2
                  · exact Or.inl ⟨(node, d),
                      List.mem_append_right _ (List.mem_singleton.mpr rfl),
                      by rw [hnid]; exact hfst⟩
                  · exact Or.inr ⟨p, List.mem_append_left _ hp2, hfst⟩
            · intro hx
              rcases hx with ⟨p, hp, hid⟩ | ⟨p, hp, hfst⟩
              · rcases List.mem_append.mp hp with hp2 | hp2
                · exact Or.inr ((hinv.vis_eq x).mpr (Or.inl ⟨p, hp2, hid⟩))
                · rw [List.mem_singleton] at hp2
                  subst hp2
                  refine Or.inr ((hinv.vis_eq x).mpr (Or.inr ⟨(c, d),
                    List.mem_cons_self _ _, ?_⟩))
                  rw [← hid, hnid]
              · rcases List.mem_append.mp hp with hp2 | hp2
                · exact Or.inr ((hinv.vis_eq x).mpr (Or.inr ⟨p,
                    List.mem_cons_of_mem _ hp2, hfst⟩))
                · obtain ⟨y, hy, rfl⟩ := (hE2 p).mp hp2
                  exact Or.inl (hfst ▸ hy)
          -- nodup
          · have hshape : ((acc ++ [(node, d)]).map (fun p => p.1.id) ++
                (rest ++ (enqueueNeighbors (d + 1) (g.neighborsOf c) vis).2).map
                  Prod.fst) =
                (acc.map (fun p => p.1.id) ++ c :: rest.map Prod.fst) ++ fresh := by
              rw [List.map_append, List.map_append, h2, map_fst_pair]
              simp [hnid, List.append_assoc]
            rw [hshape, List.nodup_append]
            refine ⟨by simpa using hinv.nodup, h3, ?_⟩
            intro y hy hyf
            have hyvis : y ∈ vis := by
              rcases List.mem_append.mp hy with hy2 | hy2
              · obtain ⟨p, hp, hid⟩ := List.mem_map.mp hy2
                exact (hinv.vis_eq y).mpr (Or.inl ⟨p, hp, hid⟩)
              · rcases List.mem_cons.mp hy2 with rfl | hy3
                · exact (hinv.vis_eq y).mpr (Or.inr ⟨(y, d),
                    List.mem_cons_self _ _, rfl⟩)
                · obtain ⟨p, hp, hid⟩ := List.mem_map.mp hy3
                  exact (hinv.vis_eq y).mpr (Or.inr ⟨p,
                    List.mem_cons_of_mem _ hp, hid⟩)
            exact (h4 y hyf).1 hyvis
          -- acc_node
          · intro p hp
            rcases List.mem_append.mp hp with hp2 | hp2
            · exact hinv.acc_node p hp2
            · rw [List.mem_singleton] at hp2
              subst hp2
              rw [hnid]
              exact hnode
          -- acc_reach
          · intro p hp
            rcases List.mem_append.mp hp with hp2 | hp2
            · exact hinv.acc_reach p hp2
            · rw [List.mem_singleton] at hp2
              subst hp2
              exact ⟨by rw [hnid]; exact hqrh.1, hqrh.2⟩
          -- q_node
          · intro p hp
            rcases List.mem_append.mp hp with hp2 | hp2
            · exact hinv.q_node p (List.mem_cons_of_mem _ hp2)
            · obtain ⟨x, hx, rfl⟩ := (hE2 p).mp hp2
              obtain ⟨nbx, hnbx⟩ := hfreshnode x hx
              rw [show ((x, d + 1) : String × ℕ).1 = x from rfl, hnbx]
              rfl
          -- q_reach
          · intro p hp
            rcases List.mem_append.mp hp with hp2 | hp2
            · exact hinv.q_reach p (List.mem_cons_of_mem _ hp2)
            · obtain ⟨x, hx, rfl⟩ := (hE2 p).mp hp2
              exact ⟨hqrh.1.snoc (hedge_fresh x hx), by omega⟩
          -- q_sorted
          · rw [List.pairwise_append]
            refine ⟨hsp.2, ?_, ?_⟩
            · rw [h2, List.pairwise_map]
              exact h3.imp (fun _ => le_refl _)
            · intro p hp r hr
              obtain ⟨x, hx, rfl⟩ := (hE2 r).mp hr
              exact hinv.q_window p (List.mem_cons_of_mem _ hp) (c, d)
                (List.mem_cons_self _ _)
          -- q_window
          · intro p hp r hr
            rcases List.mem_append.mp hp with hp2 | hp2 <;>
              rcases List.mem_append.mp hr with hr2 | hr2
            · exact hinv.q_window p (List.mem_cons_of_mem _ hp2) r
                (List.mem_cons_of_mem _ hr2)
            · obtain ⟨x, hx, rfl⟩ := (hE2 r).mp hr2
              have := hinv.q_window p (List.mem_cons_of_mem _ hp2) (c, d)
                (List.mem_cons_self _ _)
              simp only at *
              omega
            · obtain ⟨x, hx, rfl⟩ := (hE2 p).mp hp2
              have := hsp.1 r hr2
              simp only at *
              omega
            · obtain ⟨x, hx, rfl⟩ := (hE2 p).mp hp2
              obtain ⟨y, hy, rfl⟩ := (hE2 r).mp hr2
              simp
          -- acc_le_q
          · intro p hp r hr
            rcases List.mem_append.mp hp with hp2 | hp2 <;>
              rcases List.mem_append.mp hr with hr2 | hr2
            · exact hinv.acc_le_q p hp2 r (List.mem_cons_of_mem _ hr2)
            · obtain ⟨x, hx, rfl⟩ := (hE2 r).mp hr2
              have := hinv.acc_le_q p hp2 (c, d) (List.mem_cons_self _ _)
              simp only at *
              omega
            · rw [List.mem_singleton] at hp2
              subst hp2
              exact hsp.1 r hr2
            · rw [List.mem_singleton] at hp2
              subst hp2
              obtain ⟨x, hx, rfl⟩ := (hE2 r).mp hr2
              simp
          -- closed
          · intro p hp hplt b hedge
            rcases List.mem_append.mp hp with hp2 | hp2
            · obtain ⟨e, he, hcase⟩ := hinv.closed p hp2 hplt b hedge
              rcases hcase with ⟨nb, hnb, hmem⟩ | hq
              · exact ⟨e, he, Or.inl ⟨nb, hnb, List.mem_append_left _ hmem⟩⟩
              · rcases List.mem_cons.mp hq with heq | hq2
                · refine ⟨e, he, Or.inl ⟨node, ?_, ?_⟩⟩
                  · rw [show b = c from congrArg Prod.fst heq]
                    exact hnode
                  · rw [show e = d from congrArg Prod.snd heq]
                    exact List.mem_append_right _ (List.mem_singleton.mpr rfl)
                · exact ⟨e, he, Or.inr (List.mem_append_left _ hq2)⟩
            · rw [List.mem_singleton] at hp2
              subst hp2
              simp only at hplt hedge ⊢
              rw [hnid] at hedge
              obtain ⟨nb, hnbmem, hnbid⟩ := List.any_eq_true.mp hedge
              have hbid : nb.id = b := by simpa using hnbid
              rcases h5 nb hnbmem with hbv | hbf
              · rw [hbid] at hbv
                rcases (hinv.vis_eq b).mp hbv with ⟨p', hp', hid⟩ | ⟨p', hp', hfst⟩
                · refine ⟨p'.2, ?_, Or.inl ⟨p'.1, ?_, ?_⟩⟩
                  · have := hinv.acc_le_q p' hp' (c, d) (List.mem_cons_self _ _)
                    omega
                  · rw [← hid]
                    exact hinv.acc_node p' hp'
                  · rw [show (p'.1, p'.2) = p' from rfl]
                    exact List.mem_append_left _ hp'
                · rcases List.mem_cons.mp hp' with rfl | hp'2
                  · refine ⟨d, by omega, Or.inl ⟨node, ?_,
                      List.mem_append_right _ (List.mem_singleton.mpr rfl)⟩⟩
                    rw [← hfst]
                    exact hnode
                  · refine ⟨p'.2, ?_, Or.inr ?_⟩
                    · have := hinv.q_window p' (List.mem_cons_of_mem _ hp'2) (c, d)
                        (List.mem_cons_self _ _)
                      omega
                    · refine List.mem_append_left _ ?_
                      rw [show (b, p'.2) = p' from by rw [← hfst]]
                      exact hp'2
              · rw [hbid] at hbf
                exact ⟨d + 1, le_refl _, Or.inr (List.mem_append_right _
                  ((hE2 (b, d + 1)).mpr ⟨b, hbf, rfl⟩))⟩
      · rw [if_neg hlt]
        rw [List.append_cons]
        refine ih rest vis (acc ++ [(node, d)]) ?_ ?_
        · simp only [List.length_cons] at hN
          omega
        · constructor
          -- vis_eq
          · intro x
            rw [hinv.vis_eq x]
            constructor
            · intro hx
              rcases hx with ⟨p, hp, hid⟩ | ⟨p, hp, hfst⟩
              · exact Or.inl ⟨p, List.mem_append_left _ hp, hid⟩
              · rcases List.mem_cons.mp hp with rfl | hp2
                · exact Or.inl ⟨(node, d),
                    List.mem_append_right _ (List.mem_singleton.mpr rfl),
                    by rw [hnid]; exact hfst⟩
                · exact Or.inr ⟨p, hp2, hfst⟩
            · intro hx
              rcases hx with ⟨p, hp, hid⟩ | ⟨p, hp, hfst⟩
              · rcases List.mem_append.mp hp with hp2 | hp2
                · exact Or.inl ⟨p, hp2, hid⟩
                · rw [List.mem_singleton] at hp2
                  subst hp2
                  exact Or.inr ⟨(c, d), List.mem_cons_self _ _, by rw [← hid, hnid]⟩
              · exact Or.inr ⟨p, List.mem_cons_of_mem _ hp, hfst⟩
          -- nodup
          · have hshape : ((acc ++ [(node, d)]).map (fun p => p.1.id) ++
                rest.map Prod.fst) =
                acc.map (fun p => p.1.id) ++ c :: rest.map Prod.fst := by
              rw [List.map_append]
              simp [hnid, List.append_assoc]
            rw [hshape]
            simpa using hinv.nodup
          -- acc_node
          · intro p hp
            rcases List.mem_append.mp hp with hp2 | hp2
            · exact hinv.acc_node p hp2
            · rw [List.mem_singleton] at hp2
              subst hp2
              rw [hnid]
              exact hnode
          -- acc_reach
          · intro p hp
            rcases List.mem_append.mp hp with hp2 | hp2
            · exact hinv.acc_reach p hp2
            · rw [List.mem_singleton] at hp2
              subst hp2
              exact ⟨by rw [hnid]; exact hqrh.1, hqrh.2⟩
          -- q_node
          · intro p hp
            exact hinv.q_node p (List.mem_cons_of_mem _ hp)
          -- q_reach
          · intro p hp
            exact hinv.q_reach p (List.mem_cons_of_mem _ hp)
          -- q_sorted
          · exact hsp.2
          -- q_window
          · intro p hp r hr
            exact hinv.q_window p (List.mem_cons_of_mem _ hp) r
              (List.mem_cons_of_mem _ hr)
          -- acc_le_q
          · intro p hp r hr
            rcases List.mem_append.mp hp with hp2 | hp2
            · exact hinv.acc_le_q p hp2 r (List.mem_cons_of_mem _ hr)
            · rw [List.mem_singleton] at hp2
              subst hp2
              exact hsp.1 r hr
          -- closed
          · intro p hp hplt b hedge
            rcases List.mem_append.mp hp with hp2 | hp2
            · obtain ⟨e, he, hcase⟩ := hinv.closed p hp2 hplt b hedge
              rcases hcase with ⟨nb, hnb, hmem⟩ | hq
              · exact ⟨e, he, Or.inl ⟨nb, hnb, List.mem_append_left _ hmem⟩⟩
              · rcases List.mem_cons.mp hq with heq | hq2
                · refine ⟨e, he, Or.inl ⟨node, ?_, ?_⟩⟩
                  · rw [show b = c from congrArg Prod.fst heq]
                    exact hnode
                  · rw [show e = d from congrArg Prod.snd heq]
                    exact List.mem_append_right _ (List.mem_singleton.mpr rfl)
                · exact ⟨e, he, Or.inr hq2⟩
            · rw [List.mem_singleton] at hp2
              subst hp2
              exact absurd hplt hlt

theorem travQ {T : Type} (g : KnowledgeGraph T) (maxDepth : ℕ) :
    ∀ (N : ℕ) (q : List (String × ℕ)) (vis : List String),
      unvisitedCount g vis + q.length ≤ N →
      ∀ p ∈ q, ∀ n : GraphNode T, g.getNode p.1 = some n →
        (n, p.2) ∈ traverseAuxD g maxDepth q vis := by
  intro N
  induction N with
  | zero =>
    intro q vis hN p hp n hn
    have hq : q = [] := List.length_eq_zero.mp (by omega)
    subst hq
    simp at hp
  | succ N ih =>
    intro q vis hN p hp n hn
    cases q with
    | nil => simp at hp
    | cons hd rest =>
      obtain ⟨c, d⟩ := hd
      rw [traverseAuxD]
      rcases List.mem_cons.mp hp with rfl | hp2
      · have hn' : g.getNode c = some n := hn
        simp only [hn']
        by_cases hlt : d < maxDepth
        · rw [if_pos hlt]
          exact List.mem_cons_self _ _
        · rw [if_neg hlt]
          exact List.mem_cons_self _ _
      · cases hgc : g.getNode c with
        | none =>
          simp only []
          refine ih rest vis ?_ p hp2 n hn
          simp only [List.length_cons] at hN
          omega
        | some node =>
          simp only []
          by_cases hlt : d < maxDepth
          · rw [if_pos hlt]
            refine List.mem_cons_of_mem _ ?_
            obtain ⟨fresh, h1, h2, h3, h4, h5⟩ :=
              enqueueNeighbors_spec (d + 1) (g.neighborsOf c) vis
            refine ih (rest ++ (enqueueNeighbors (d + 1) (g.neighborsOf c) vis).2)
              (enqueueNeighbors (d + 1) (g.neighborsOf c) vis).1 ?_ p
              (List.mem_append_left _ hp2) n hn
            have hext := unvisited_extend g fresh vis h3 (fun x hx => (h4 x hx).1)
              (fun x hx => by
                obtain ⟨nb, hnb, hid⟩ := (h4 x hx).2
                have hnbnode := neighborsOf_node g c nb hnb
                exact List.mem_map.mpr ⟨nb, List.mem_of_find?_eq_some hnbnode,
                  hid ▸ rfl⟩)
            rw [← h1] at hext
            have hlen2 : (enqueueNeighbors (d + 1) (g.neighborsOf c) vis).2.length =
                fresh.length := by rw [h2, List.length_map]
            simp only [List.length_append, List.length_cons] at *
            omega
          · rw [if_neg hlt]
            refine List.mem_cons_of_mem _ ?_
            refine ih rest vis ?_ p hp2 n hn
            simp only [List.length_cons] at hN
            omega

theorem travChain {T : Type} {g : KnowledgeGraph T} {maxDepth : ℕ} {i : String}
    {out : List (GraphNode T × ℕ)} (hout : TravOut g maxDepth i out) :
    ∀ {k : ℕ} {x t : String}, ReachesIn g k x t →
      ∀ (e : ℕ) (nx : GraphNode T), (nx, e) ∈ out → nx.id = x → e + k ≤ maxDepth →
        ∃ e' ≤ e + k, ∃ nt, g.getNode t = some nt ∧ (nt, e') ∈ out := by
  intro k x t hreach
  induction hreach with
  | refl n a =>
    intro e nx hmem hid hbound
    refine ⟨e, by omega, nx, ?_, hmem⟩
    rw [← hid]
    exact (hout.2.1 (nx, e) hmem).1
  | step hedge hrest ihc =>
    intro e nx hmem hid hbound
    have hlt : e < maxDepth := by omega
    obtain ⟨eb, heb, nb, hnb, hnbmem⟩ :=
      hout.2.2 (nx, e) hmem hlt _ (by rw [show (nx, e).1.id = nx.id from rfl, hid]; exact hedge)
    obtain ⟨e', he', nt, hnt, hntm⟩ := ihc eb nb hnbmem (getNode_id hnb) (by omega)
    exact ⟨e', by omega, nt, hnt, hntm⟩

/--
Claim C7: for every graph, start id present in the graph, and depth bound,
`traverse(id, maxDepth)` yields each node at most once (distinct ids), every
yielded node is the graph's node at its id, and a node id is yielded exactly
when it is reachable from the start id within at most `maxDepth` edge hops.
-/
theorem traverse_spec {T : Type} (g : KnowledgeGraph T) (i : String) (maxDepth : ℕ)
    (n₀ : GraphNode T) (h0 : g.getNode i = some n₀) :
    ((traverse g i maxDepth).map GraphNode.id).Nodup
    ∧ (∀ n ∈ traverse g i maxDepth, g.getNode n.id = some n)
    ∧ ∀ t : String, (∃ n ∈ traverse g i maxDepth, n.id = t) ↔
        ∃ k ≤ maxDepth, ReachesIn g k i t := by
  have hinv0 : TravInv g maxDepth i [] [i] [(i, 0)] := by
    constructor
    · intro x
      constructor
      · intro hx
        exact Or.inr ⟨(i, 0), List.mem_singleton.mpr rfl,
          (List.mem_singleton.mp hx).symm⟩
      · intro h
        rcases h with ⟨p, hp, _⟩ | ⟨p, hp, hfst⟩
        · simp at hp
        · rw [List.mem_singleton] at hp
          subst hp
          exact List.mem_singleton.mpr hfst.symm
    · simp
    · simp
    · simp
    · intro p hp
      rw [List.mem_singleton] at hp
      subst hp
      rw [show ((i, 0) : String × ℕ).1 = i from rfl, h0]
      rfl
    · intro p hp
      rw [List.mem_singleton] at hp
      subst hp
      exact ⟨ReachesIn.refl 0 i, Nat.zero_le _⟩
    · simp
    · intro p hp r hr
      rw [List.mem_singleton] at hp hr
      subst hp
      subst hr
      omega
    · simp
    · simp
  have hG := travG g maxDepth i (unvisitedCount g [i] + 1) [(i, 0)] [i] []
    (by simp) hinv0
  rw [List.nil_append] at hG
  have hG' := hG
  unfold TravOut at hG'
  obtain ⟨hnd, hspec, hclosed⟩ := hG'
  have hn0id : n₀.id = i := getNode_id h0
  have hq0 : (n₀, 0) ∈ traverseAuxD g maxDepth [(i, 0)] [i] :=
    travQ g maxDepth (unvisitedCount g [i] + 1) [(i, 0)] [i] (by simp) (i, 0)
      (List.mem_singleton.mpr rfl) n₀ h0
  refine ⟨?_, ?_, ?_⟩
  · rw [traverse, List.map_map]
    exact hnd
  · intro n hn
    rw [traverse] at hn
    obtain ⟨p, hp, hfst⟩ := List.mem_map.mp hn
    rw [← hfst]
    exact (hspec p hp).1
  · intro t
    constructor
    · rintro ⟨n, hn, rfl⟩
      rw [traverse] at hn
      obtain ⟨p, hp, hfst⟩ := List.mem_map.mp hn
      obtain ⟨-, hreach, hbound⟩ := hspec p hp
      exact ⟨p.2, hbound, by rw [← hfst]; exact hreach⟩
    · rintro ⟨k, hk, hreach⟩
      obtain ⟨e', he', nt, hnt, hntm⟩ :=
        travChain hG hreach 0 n₀ hq0 hn0id (by omega)
      refine ⟨nt, ?_, getNode_id hnt⟩
      rw [traverse]
      exact List.mem_map.mpr ⟨(nt, e'), hntm, rfl⟩

/--
Witness for claim C7: the two-node example graph (`a → b`), traversed from
`a` with depth bound 1.
-/
theorem traverse_spec_witness :
    exGraph.getNode "a" = some exNodeA
    ∧ (((traverse exGraph "a" 1).map GraphNode.id).Nodup
      ∧ (∀ n ∈ traverse exGraph "a" 1, exGraph.getNode n.id = some n)
      ∧ ∀ t : String, (∃ n ∈ traverse exGraph "a" 1, n.id = t) ↔
          ∃ k ≤ 1, ReachesIn exGraph k "a" t) :=
  ⟨by decide, traverse_spec exGraph "a" 1 exNodeA (by decide)⟩

end OpenEvals
